import Mathlib

/-!
Verification of the chunked tensor storage engine (hub core).

The development shallowly embeds `src/hub/core/chunk_engine.py`.  The classes
`Chunk`, `ChunkIdEncoder`, `TensorMeta` and the sample codec are not part of
the excerpted sources; they are modelled from the specification (spec sections
3, 4.2, 4.3, 4.4, 4.5), as marked in the doc comments below.  Machine bytes are
modelled as natural numbers; the dtype itemsize is modelled as one byte per
element, so a buffer is a list of element values.  Chunk identities are natural
numbers: the source derives chunk names from 64-bit ids by an injective hex
encoding (`name_from_id`), so sets of names are modelled as sets of ids.
-/

namespace HubChunks

/-- A sample shape: the list of dimension sizes. -/
abbrev Shape := List Nat

/-- A serialized sample payload, one entry per stored byte. -/
abbrev Buffer := List Nat

/-- Modelled from the spec: `Chunk` (spec section 3 and 4.2; the chunk module is
absent from the excerpt).  A chunk owns an append-only byte buffer, a
`shapes_encoder` mapping local index to shape and a `byte_positions_encoder`
mapping local index to the `(start_byte, end_byte)` range in the buffer. -/
structure Chunk where
  data : List Nat
  shapes : List Shape
  bytePositions : List (Nat × Nat)
  deriving Repr, DecidableEq, Inhabited

/-- Modelled from the spec: `TensorMeta` (spec section 4.4; the tensor meta
module is absent from the excerpt): dtype, sample count, shape interval,
chunk-size bound and compression kind.  The dtype is an abstract code. -/
structure TensorMeta where
  dtype : Option Nat
  length : Nat
  minShape : Option Shape
  maxShape : Option Shape
  maxChunkSize : Nat
  sampleCompression : Bool
  deriving Repr, DecidableEq, Inhabited

/-- Errors surfaced by the engine (spec section 7). -/
inductive EngineError where
  | readOnly
  | corruptedMeta
  | dynamicShape
  | valueError
  deriving Repr, DecidableEq

/-- Equality of fallible results is decidable, so concrete runs can be checked
by evaluation. -/
instance {ε α : Type} [DecidableEq ε] [DecidableEq α] : DecidableEq (Except ε α) :=
  fun a b =>
    match a, b with
    | .error e1, .error e2 =>
        if h : e1 = e2 then .isTrue (by rw [h])
        else .isFalse (by intro hc; injection hc with h2; exact h h2)
    | .error e1, .ok a2 => .isFalse (by intro hc; exact Except.noConfusion hc)
    | .ok a1, .error e2 => .isFalse (by intro hc; exact Except.noConfusion hc)
    | .ok a1, .ok a2 =>
        if h : a1 = a2 then .isTrue (by rw [h])
        else .isFalse (by intro hc; injection hc with h2; exact h h2)

/-- The engine state: tensor meta, the chunk id encoder rows (None when the
encoder blob is absent from the cache), the stored chunks in creation order
(one per encoder row; ids are distinct, so the keyed cache lookup of the source
is modelled positionally), the id generator state, and the read-only flag of
the storage.  An encoder row is `(chunk_id, last_global_sample_index)`
(spec section 4.3). -/
structure EngineState where
  meta : TensorMeta
  enc : Option (List (Nat × Nat))
  chunks : List Chunk
  nextChunkId : Nat
  readonly : Bool
  deriving Repr, DecidableEq, Inhabited

/-- Chunk.num_data_bytes: length of the data buffer. -/
def Chunk.numDataBytes (c : Chunk) : Nat := c.data.length

/-- Chunk.nbytes, modelled from the spec as the data byte count (the small
serialized header of the on-disk layout is not modelled). -/
def Chunk.nbytes (c : Chunk) : Nat := c.data.length

/-- Chunk.is_under_min_space (spec section 4.2): `num_data_bytes < min`. -/
def Chunk.isUnderMinSpace (c : Chunk) (minSize : Nat) : Bool :=
  c.numDataBytes < minSize

/-- Chunk.append_sample (spec section 4.2): append the buffer bytes, record the
shape and the byte range in the local encoders. -/
def Chunk.appendSample (c : Chunk) (buffer : Buffer) (shape : Shape) : Chunk :=
  { data := c.data ++ buffer
    shapes := c.shapes ++ [shape]
    bytePositions := c.bytePositions ++ [(c.data.length, c.data.length + buffer.length)] }

/-- Byte-position rewrite for Chunk.update_sample (spec section 4.1, update
algorithm): entries before the local index are kept, the entry at the local
index becomes `(sb, sb + b)`, and later entries are shifted by
`b - (eb - sb)`. -/
def shiftPositions (localIndex sb eb b : Nat) : Nat → List (Nat × Nat) → List (Nat × Nat)
  | _, [] => []
  | i, (s, e) :: rest =>
      (if i < localIndex then (s, e)
       else if i = localIndex then (sb, sb + b)
       else (s + b - (eb - sb), e + b - (eb - sb))) :: shiftPositions localIndex sb eb b (i + 1) rest

/-- Chunk.update_sample (spec section 4.1, update algorithm): splice out the
old byte range, splice in the new buffer, rewrite the shape entry and shift the
byte positions from the local index onwards. -/
def Chunk.updateSample (c : Chunk) (localIndex : Nat) (buffer : Buffer) (shape : Shape) : Chunk :=
  let sb := (c.bytePositions.getD localIndex (0, 0)).1
  let eb := (c.bytePositions.getD localIndex (0, 0)).2
  { data := c.data.take sb ++ buffer ++ c.data.drop eb
    shapes := c.shapes.set localIndex shape
    bytePositions := shiftPositions localIndex sb eb buffer.length 0 c.bytePositions }

/-- Modelled from the spec: DEFAULT_MAX_CHUNK_SIZE (the constants module is
absent from the excerpt; spec section 8 uses a 32 MiB chunk budget). -/
def DEFAULT_MAX_CHUNK_SIZE : Nat := 32 * 1048576

/-- ChunkEngine.max_chunk_size: from TensorMeta, falling back to the default
when unset (an unset bound is modelled as 0). -/
def maxChunkSizeOf (st : EngineState) : Nat :=
  if st.meta.maxChunkSize = 0 then DEFAULT_MAX_CHUNK_SIZE else st.meta.maxChunkSize

/-- ChunkEngine.min_chunk_size: `max_chunk_size // 2`. -/
def minChunkSizeOf (st : EngineState) : Nat := maxChunkSizeOf st / 2

/-- _min_chunk_ct_for_data_size: `ceil(size / chunk_max_data_bytes)`. -/
def minChunkCtForDataSize (chunkMaxDataBytes size : Nat) : Nat :=
  (size + chunkMaxDataBytes - 1) / chunkMaxDataBytes

/-- The encoder rows currently in the cache, or `[]` when absent. -/
def encRows (st : EngineState) : List (Nat × Nat) := st.enc.getD []

/-- ChunkIdEncoder.num_samples: one past the last row's last index. -/
def encNumSamples (rows : List (Nat × Nat)) : Nat :=
  match rows.getLast? with
  | none => 0
  | some r => r.2 + 1

/-- ChunkEngine.num_samples: 0 when the encoder blob is absent. -/
def numSamplesOf (st : EngineState) : Nat :=
  match st.enc with
  | none => 0
  | some rows => encNumSamples rows

/-- ChunkEngine.num_chunks: 0 when the encoder blob is absent. -/
def numChunksOf (st : EngineState) : Nat :=
  match st.enc with
  | none => 0
  | some rows => rows.length

/-- ChunkIdEncoder lookup `enc[g]` (spec section 4.3): the chunk id of the
first row whose last index is at least `g`. -/
def encLookup : List (Nat × Nat) → Nat → Nat
  | [], _ => 0
  | (cid, last) :: rest, g => if g ≤ last then cid else encLookup rest g

/-- Index of the row owning global sample `g` (the binary search of the source
realized as the smallest row whose last index is at least `g`). -/
def rowIndexFor : List (Nat × Nat) → Nat → Nat
  | [], _ => 0
  | (_, last) :: rest, g => if g ≤ last then 0 else rowIndexFor rest g + 1

/-- ChunkIdEncoder.translate_index_relative_to_chunks (spec section 4.1):
the local index is `g` for the first row, else
`g - last_index_of_previous_row - 1`. -/
def translateIndexRelativeToChunks (rows : List (Nat × Nat)) (g : Nat) : Nat :=
  let i := rowIndexFor rows g
  if i = 0 then g else g - (rows.getD (i - 1) (0, 0)).2 - 1

/-- ChunkEngine.last_chunk: None when there are no chunks. -/
def lastChunkOf (st : EngineState) : Option Chunk := st.chunks.getLast?

/-- ChunkEngine._try_appending_to_last_chunk: merge the incoming sample into
the last chunk exactly when the last chunk exists, is under min size, and the
ceiling chunk counts of the incoming bytes alone and combined with the last
chunk's bytes agree; at most `max_chunk_size - last_chunk_size` bytes of the
buffer are written.  Returns the new state and whether the buffer was
consumed. -/
def tryAppendingToLastChunk (st : EngineState) (buffer : Buffer) (shape : Shape) :
    EngineState × Bool :=
  match st.chunks.getLast? with
  | none => (st, false)
  | some lastChunk =>
      let incomingNumBytes := buffer.length
      if lastChunk.isUnderMinSpace (minChunkSizeOf st) then
        let lastChunkSize := lastChunk.numDataBytes
        let chunkCtContent := minChunkCtForDataSize (maxChunkSizeOf st) incomingNumBytes
        let extraBytes := min incomingNumBytes (maxChunkSizeOf st - lastChunkSize)
        let combinedChunkCt :=
          minChunkCtForDataSize (maxChunkSizeOf st) (incomingNumBytes + lastChunkSize)
        if combinedChunkCt = chunkCtContent then
          ({ st with chunks :=
              st.chunks.dropLast ++ [lastChunk.appendSample (buffer.take extraBytes) shape] },
           true)
        else (st, false)
      else (st, false)

/-- A freshly created chunk holding one sample (ChunkEngine._append_to_new_chunk). -/
def freshChunk (buffer : Buffer) (shape : Shape) : Chunk :=
  ⟨buffer, [shape], [(0, buffer.length)]⟩

/-- ChunkIdEncoder.register_samples(n) on an existing last row: extend the last
row's last index by `n` (spec section 4.3). -/
def incrementLastRow (rows : List (Nat × Nat)) (n : Nat) : List (Nat × Nat) :=
  match rows.getLast? with
  | none => rows
  | some r => rows.dropLast ++ [(r.1, r.2 + n)]

/-- ChunkEngine._append_bytes: try the last chunk; else create a new chunk with
a fresh id and append the full buffer to it; then register one sample in the
chunk id encoder (a new row for a freshly created chunk, spec section 4.3).
Cache synchronization is metadata bookkeeping only and is a no-op here. -/
def appendBytes (st : EngineState) (buffer : Buffer) (shape : Shape) : EngineState :=
  let p := tryAppendingToLastChunk st buffer shape
  if p.2 then
    { p.1 with enc := some (incrementLastRow (encRows p.1) 1) }
  else
    { st with
        chunks := st.chunks ++ [freshChunk buffer shape]
        enc := some (encRows st ++ [(st.nextChunkId, numSamplesOf st)])
        nextChunkId := st.nextChunkId + 1 }

/-- ChunkEngine.chunk_id_encoder property: when the encoder blob is absent, a
blank encoder is created, unless the tensor meta already records a length above
one, which is corruption. -/
def materializeEncoder (st : EngineState) : Except EngineError EngineState :=
  match st.enc with
  | some _ => .ok st
  | none =>
      if st.meta.length > 1 then .error .corruptedMeta
      else .ok { st with enc := some [] }

/-- TensorMeta.update_shape_interval, modelled from the spec (section 4.4):
widen the shape interval element-wise.  The InvalidShape check on a
dimensionality mismatch is not modelled; every state considered here has
samples of uniform dimensionality. -/
def updateShapeInterval (m : TensorMeta) (shape : Shape) : TensorMeta :=
  match m.minShape, m.maxShape with
  | some mn, some mx =>
      { m with
          minShape := some (List.zipWith min mn shape)
          maxShape := some (List.zipWith max mx shape) }
  | _, _ => { m with minShape := some shape, maxShape := some shape }

/-- Body of ChunkEngine.extend: for each serialized `(buffer, shape)` pair,
widen the shape interval, bump the recorded length, then place the bytes.
The sample codec `serialize_input_samples` is external (spec section 4.5) and
is modelled as the identity on `(buffer, shape)` pairs. -/
def extendLoop : EngineState → List (Buffer × Shape) → EngineState
  | st, [] => st
  | st, (buffer, shape) :: rest =>
      let m := updateShapeInterval st.meta shape
      let m2 := { m with length := m.length + 1 }
      extendLoop (appendBytes { st with meta := m2 } buffer shape) rest

/-- ChunkEngine.extend: check the storage for read-only access, materialize the
chunk id encoder, set the dtype on first use (`dt` stands for the externally
inferred `get_dtype(samples)`), then feed every sample into `_append_bytes`. -/
def extendE (st : EngineState) (dt : Nat) (samples : List (Buffer × Shape)) :
    Except EngineError EngineState :=
  if st.readonly then .error .readOnly
  else
    match materializeEncoder st with
    | .error e => .error e
    | .ok st1 =>
        let st2 :=
          if st1.meta.dtype = none then
            { st1 with meta := { st1.meta with dtype := some dt } }
          else st1
        .ok (extendLoop st2 samples)

/-- ChunkEngine.append: a one-sample extend. -/
def appendE (st : EngineState) (dt : Nat) (sample : Buffer × Shape) :
    Except EngineError EngineState :=
  extendE st dt [sample]

/-- Fold of successive extend batches, used to state round-trip properties. -/
def extendAllE (st : EngineState) (dt : Nat) (batches : List (List (Buffer × Shape))) :
    Except EngineError EngineState :=
  batches.foldlM (fun s batch => extendE s dt batch) st

/-- A fresh, never-written tensor: no dtype, no shape interval, zero length, no
encoder blob, no chunks, writable storage. -/
def stInit (maxSize : Nat) : EngineState :=
  { meta :=
      { dtype := none, length := 0, minShape := none, maxShape := none
        maxChunkSize := maxSize, sampleCompression := false }
    enc := none, chunks := [], nextChunkId := 0, readonly := false }

/-- A materialized sample as returned by the read path: its shape, the tensor
dtype it was decoded with, and its element data. -/
structure ReadSample where
  shape : Shape
  dtype : Nat
  data : List Nat
  deriving Repr, DecidableEq, Inhabited

/-- Tensor dtype code (0 when unset). -/
def dtypeOf (st : EngineState) : Nat := st.meta.dtype.getD 0

/-- Modelled from the spec: the external `decompress(buffer, shape)` codec
operation (spec sections 1 and 4.5).  The codec contract makes the buffer
sufficient to reconstruct the array, so on this byte-level model decompression
is the identity on the payload. -/
def decompressArray (buffer : List Nat) (_shape : Shape) : List Nat := buffer

/-- ChunkEngine.read_sample_from_chunk: translate the global index to a local
index, look up shape and byte range in the chunk's encoders, slice the data
buffer, and return zeros of the recorded shape for an empty byte range,
decompressing otherwise when the tensor is compressed. -/
def readSampleFromChunk (st : EngineState) (g : Nat) (c : Chunk) : ReadSample :=
  let localIndex := translateIndexRelativeToChunks (encRows st) g
  let shape := c.shapes.getD localIndex []
  let sb := (c.bytePositions.getD localIndex (0, 0)).1
  let eb := (c.bytePositions.getD localIndex (0, 0)).2
  let buffer := (c.data.drop sb).take (eb - sb)
  if buffer.length = 0 then ⟨shape, dtypeOf st, List.replicate shape.prod 0⟩
  else if st.meta.sampleCompression then ⟨shape, dtypeOf st, decompressArray buffer shape⟩
  else ⟨shape, dtypeOf st, buffer⟩

/-- ChunkEngine.get_chunk_for_sample: the chunk owning global sample `g`.
The id-keyed cache lookup of the source is modelled positionally (ids are
distinct). -/
def getChunkForSample (st : EngineState) (g : Nat) : Chunk :=
  st.chunks.getD (rowIndexFor (encRows st) g) default

/-- The read path for one sample: fetch the owning chunk, then read from it. -/
def readSample (st : EngineState) (g : Nat) : ReadSample :=
  readSampleFromChunk st g (getChunkForSample st g)

/-- Loop of ChunkEngine.numpy: read each addressed sample, raising
DynamicShape when `aslist` is false and a sample's shape differs from the
previous one. -/
def numpyGo (st : EngineState) (aslist : Bool) :
    List Nat → Option Shape → List ReadSample → Except EngineError (List ReadSample)
  | [], _, acc => .ok acc.reverse
  | g :: rest, lastShape, acc =>
      let s := readSample st g
      match lastShape with
      | some ls =>
          if aslist = false ∧ s.shape ≠ ls then .error .dynamicShape
          else numpyGo st aslist rest (some s.shape) (s :: acc)
      | none => numpyGo st aslist rest (some s.shape) (s :: acc)

/-- ChunkEngine.numpy over the resolved list of global indices addressed by the
index (index resolution itself is the external `Index` collaborator).  The
result is the list of materialized samples; the dense stacking performed by
`_format_read_samples` for `aslist = false` is represented by that list, whose
members are guaranteed to share one shape. -/
def numpyE (st : EngineState) (idxs : List Nat) (aslist : Bool) :
    Except EngineError (List ReadSample) :=
  numpyGo st aslist idxs none []

/-- The chunk name owning sample `g` (names are modelled by the ids they
injectively encode). -/
def chunkNameFor (st : EngineState) (g : Nat) : Nat := encLookup (encRows st) g

/-- Loop of ChunkEngine.get_chunk_names, with the while condition
`sample_index < last_index` realized by the fuel `last_index - sample_index`:
while fewer than the target number of names have been collected and samples
remain, add the owning chunk's name of the current sample and advance. -/
def getChunkNamesGo (st : EngineState) (targetChunkCount : Nat) :
    Nat → Nat → Finset Nat → Finset Nat
  | _, 0, names => names
  | sampleIndex, fuel + 1, names =>
      if names.card < targetChunkCount then
        getChunkNamesGo st targetChunkCount (sampleIndex + 1) fuel
          (insert (chunkNameFor st sampleIndex) names)
      else names

/-- ChunkEngine.get_chunk_names. -/
def getChunkNames (st : EngineState) (sampleIndex lastIndex targetChunkCount : Nat) :
    Finset Nat :=
  getChunkNamesGo st targetChunkCount sampleIndex (lastIndex - sampleIndex) ∅

/-- ChunkEngine.validate_num_samples_is_synchronized: the recorded tensor meta
length must equal the encoder's sample count, an absent encoder blob counting
as zero samples. -/
def validateNumSamplesIsSynchronized (st : EngineState) : Except EngineError Unit :=
  let chunkIdNumSamples :=
    match st.enc with
    | none => 0
    | some rows => encNumSamples rows
  if st.meta.length ≠ chunkIdNumSamples then .error .corruptedMeta else .ok ()

/-- A chunk byte count outside the warn interval
`[min_chunk_size * (1 - 0.2), max_chunk_size * (1 + 0.2)]`
(CHUNK_UPDATE_WARN_PORTION = 0.2; the float thresholds of the source are
modelled by exact rational comparison, cleared to integers). -/
def IsSuboptimal (nbytes minSize maxSize : Nat) : Prop :=
  6 * maxSize < 5 * nbytes ∨ 5 * nbytes < 4 * minSize

instance (n mn mx : Nat) : Decidable (IsSuboptimal n mn mx) := by
  unfold IsSuboptimal
  infer_instance

/-- _warn_if_suboptimal_chunks: returns the number of warnings emitted; the
loop breaks after the first offending size, so at most one warning per update
batch. -/
def warnIfSuboptimalChunks : List Nat → Nat → Nat → Nat
  | [], _, _ => 0
  | nbytes :: rest, minSize, maxSize =>
      if IsSuboptimal nbytes minSize maxSize then 1
      else warnIfSuboptimalChunks rest minSize maxSize

/-- Loop of ChunkEngine._update_sample over the resolved
`(global_index, (buffer, shape))` pairs: rewrite the owning chunk in place,
widen the shape interval, and record the chunk's byte count after the rewrite
unless the chunk is the last (tail) chunk.  Returns the final state and the
recorded byte counts in order. -/
def updateLoop : EngineState → List (Nat × (Buffer × Shape)) → EngineState × List Nat
  | st, [] => (st, [])
  | st, (g, bs) :: rest =>
      let rows := encRows st
      let k := rowIndexFor rows g
      let localIndex := translateIndexRelativeToChunks rows g
      let c := st.chunks.getD k default
      let c2 := c.updateSample localIndex bs.1 bs.2
      let st2 := { st with meta := updateShapeInterval st.meta bs.2, chunks := st.chunks.set k c2 }
      let p := updateLoop st2 rest
      (p.1, (if k ≠ rows.length - 1 then [c2.nbytes] else []) ++ p.2)

/-- ChunkEngine.update restricted to the primary axis (`idxs` is the resolved
list of global indices; the unimplemented sub-slice path of the source is not
modelled): check read-only access, materialize the encoder, require as
`_make_sequence` does that the index length match the number of samples, run
the update loop, then emit the suboptimal-chunk warning count. -/
def updateE (st : EngineState) (idxs : List Nat) (samples : List (Buffer × Shape)) :
    Except EngineError (EngineState × Nat) :=
  if st.readonly then .error .readOnly
  else
    match materializeEncoder st with
    | .error e => .error e
    | .ok st1 =>
        if idxs.length = samples.length then
          let p := updateLoop st1 (idxs.zip samples)
          .ok (p.1, warnIfSuboptimalChunks p.2 (minChunkSizeOf p.1) (maxChunkSizeOf p.1))
        else .error .valueError

/-! ### Auxiliary list lemmas -/

theorem getD_map_of_lt {α β : Type} (f : α → β) (l : List α) :
    ∀ (i : Nat) (d : β) (d2 : α), i < l.length → (l.map f).getD i d = f (l.getD i d2) := by
  induction l with
  | nil => intro i d d2 h; simp at h
  | cons a t ih =>
      intro i d d2 h
      cases i with
      | zero => rfl
      | succ n => simpa using ih n d d2 (by simpa using h)

theorem getD_append_left {α : Type} (l r : List α) :
    ∀ (i : Nat) (d : α), i < l.length → (l ++ r).getD i d = l.getD i d := by
  induction l with
  | nil => intro i d h; simp at h
  | cons a t ih =>
      intro i d h
      cases i with
      | zero => rfl
      | succ n => simpa using ih n d (by simpa using h)

theorem getD_append_right {α : Type} (l r : List α) :
    ∀ (n : Nat) (d : α), (l ++ r).getD (l.length + n) d = r.getD n d := by
  induction l with
  | nil => intro n d; simp
  | cons a t ih =>
      intro n d
      have : t.length + 1 + n = (t.length + n) + 1 := by omega
      simp only [List.cons_append, List.length_cons, this, List.getD_cons_succ]
      exact ih n d

theorem take_append_self {α : Type} (l r : List α) : (l ++ r).take l.length = l := by
  induction l with
  | nil => simp
  | cons a t ih => simp [ih]

theorem drop_append_self {α : Type} (l r : List α) (n : Nat) :
    (l ++ r).drop (l.length + n) = r.drop n := by
  induction l with
  | nil => simp
  | cons a t ih =>
      have : t.length + 1 + n = (t.length + n) + 1 := by omega
      simpa [this] using ih

theorem set_append_left_of_lt {α : Type} (l r : List α) :
    ∀ (i : Nat) (x : α), i < l.length → (l ++ r).set i x = l.set i x ++ r := by
  induction l with
  | nil => intro i x h; simp at h
  | cons a t ih =>
      intro i x h
      cases i with
      | zero => rfl
      | succ n => simp [ih n x (by simpa using h)]

theorem set_append_right_self {α : Type} (l r : List α) (n : Nat) (x : α) :
    (l ++ r).set (l.length + n) x = l ++ r.set n x := by
  induction l with
  | nil => simp
  | cons a t ih =>
      have : t.length + 1 + n = (t.length + n) + 1 := by omega
      simp [this, ih]

theorem set_of_length_le {α : Type} (l : List α) :
    ∀ (n : Nat) (x : α), l.length ≤ n → l.set n x = l := by
  induction l with
  | nil => intro n x _; rfl
  | cons a t ih =>
      intro n x h
      cases n with
      | zero => simp at h
      | succ m => simp [ih m x (by simpa using h)]

theorem getD_set_ne {α : Type} (l : List α) :
    ∀ (i j : Nat) (x : α) (d : α), i ≠ j → (l.set i x).getD j d = l.getD j d := by
  induction l with
  | nil => intro i j x d _; rfl
  | cons a t ih =>
      intro i j x d hij
      cases i with
      | zero =>
          cases j with
          | zero => exact absurd rfl hij
          | succ m => rfl
      | succ n =>
          cases j with
          | zero => rfl
          | succ m => simpa using ih n m x d (by omega)

theorem getD_set_self {α : Type} (l : List α) :
    ∀ (j : Nat) (x : α) (d : α), j < l.length → (l.set j x).getD j d = x := by
  induction l with
  | nil => intro j x d h; simp at h
  | cons a t ih =>
      intro j x d h
      cases j with
      | zero => rfl
      | succ m => simpa using ih m x d (by simpa using h)

theorem set_getD_self {α : Type} (l : List α) :
    ∀ (j : Nat) (d : α), j < l.length → l.set j (l.getD j d) = l := by
  induction l with
  | nil => intro j d h; simp at h
  | cons a t ih =>
      intro j d h
      cases j with
      | zero => rfl
      | succ m => simpa using ih m d (by simpa using h)

theorem set_eq_take_cons_drop {α : Type} (l : List α) :
    ∀ (j : Nat) (x : α), j < l.length → l.set j x = l.take j ++ x :: l.drop (j + 1) := by
  induction l with
  | nil => intro j x h; simp at h
  | cons a t ih =>
      intro j x h
      cases j with
      | zero => rfl
      | succ m => simpa using ih m x (by simpa using h)

theorem map_set_comm {α β : Type} (f : α → β) (l : List α) :
    ∀ (j : Nat) (x : α), (l.set j x).map f = (l.map f).set j (f x) := by
  induction l with
  | nil => intro j x; rfl
  | cons a t ih =>
      intro j x
      cases j with
      | zero => rfl
      | succ m => simp [ih m x]

theorem dropLast_map_comm {α β : Type} (f : α → β) (l : List α) :
    (l.map f).dropLast = l.dropLast.map f := by
  induction l with
  | nil => rfl
  | cons a t ih =>
      cases t with
      | nil => rfl
      | cons b u => simpa using ih

theorem getLast?_map_comm {α β : Type} (f : α → β) (l : List α) :
    (l.map f).getLast? = l.getLast?.map f := by
  induction l with
  | nil => rfl
  | cons a t ih =>
      cases t with
      | nil => rfl
      | cons b u => simpa using ih

theorem mem_of_mem_dropLast {α : Type} {l : List α} {a : α} (h : a ∈ l.dropLast) : a ∈ l :=
  (List.dropLast_sublist l).subset h

theorem sum_take_le_sum_take (l : List Nat) :
    ∀ (a b : Nat), a ≤ b → (l.take a).sum ≤ (l.take b).sum := by
  induction l with
  | nil => intro a b _; simp
  | cons c t ih =>
      intro a b hab
      cases a with
      | zero => simp
      | succ a1 =>
          cases b with
          | zero => omega
          | succ b1 => simpa using ih a1 b1 (by omega)

theorem sum_take_succ (l : List Nat) :
    ∀ (j : Nat), j < l.length → (l.take (j + 1)).sum = (l.take j).sum + l.getD j 0 := by
  induction l with
  | nil => intro j h; simp at h
  | cons c t ih =>
      intro j h
      cases j with
      | zero => simp
      | succ m =>
          have := ih m (by simpa using h)
          simp only [List.take_succ_cons, List.sum_cons, List.getD_cons_succ, this]
          omega

theorem sum_take_pos (l : List Nat) (j : Nat) (hj : 0 < j) (hl : 0 < l.length)
    (hpos : ∀ c ∈ l, 0 < c) : 0 < (l.take j).sum := by
  cases l with
  | nil => simp at hl
  | cons c t =>
      cases j with
      | zero => omega
      | succ m =>
          have hc : 0 < c := hpos c (by simp)
          simp only [List.take_succ_cons, List.sum_cons]
          omega

theorem take_set_of_le {α : Type} (l : List α) :
    ∀ (i j : Nat) (x : α), i ≤ j → (l.set j x).take i = l.take i := by
  induction l with
  | nil => intro i j x _; rfl
  | cons a t ih =>
      intro i j x hij
      cases j with
      | zero =>
          cases i with
          | zero => rfl
          | succ m => omega
      | succ m =>
          cases i with
          | zero => rfl
          | succ n => simp [ih n m x (by omega)]

theorem sum_set_add (l : List Nat) :
    ∀ (j b : Nat), j < l.length → (l.set j b).sum + l.getD j 0 = l.sum + b := by
  induction l with
  | nil => intro j b h; simp at h
  | cons c t ih =>
      intro j b h
      cases j with
      | zero => simp; omega
      | succ m =>
          have := ih m b (by simpa using h)
          simp only [List.set_cons_succ, List.sum_cons, List.getD_cons_succ]
          omega

theorem length_pos_of_mem_pos {l : List (List α)} : (∀ p ∈ l, p ≠ []) → ∀ c ∈ l.map List.length, 0 < c := by
  intro h c hc
  obtain ⟨p, hp, rfl⟩ := List.mem_map.mp hc
  have := h p hp
  cases p with
  | nil => exact absurd rfl this
  | cons a t => simp

/-! ### Abstraction: a state seen as a partition of the logical contents

A tensor state is abstracted by `parts`, the list of per-chunk sample lists;
each sample is a `(buffer, shape)` pair.  `chunkOf` rebuilds the chunk a part
denotes, `lastsFrom` rebuilds the encoder's last-index column, and `locate`
is the specification-level index translation. -/

/-- Byte ranges of consecutive buffers of the given lengths, starting at the
given offset. -/
def positionsFrom : Nat → List Nat → List (Nat × Nat)
  | _, [] => []
  | off, l :: ls => (off, off + l) :: positionsFrom (off + l) ls

/-- The chunk denoted by a list of samples. -/
def chunkOf (part : List (Buffer × Shape)) : Chunk :=
  ⟨(part.map Prod.fst).join, part.map Prod.snd,
    positionsFrom 0 ((part.map Prod.fst).map List.length)⟩

/-- The encoder last-index column for chunks of the given sample counts,
with `acc` samples before them. -/
def lastsFrom : Nat → List Nat → List Nat
  | _, [] => []
  | acc, c :: cs => (acc + c - 1) :: lastsFrom (acc + c) cs

/-- Specification-level index translation: the chunk index and local index of
global index `g` in chunks of the given sample counts. -/
def locate : List Nat → Nat → Nat × Nat
  | [], g => (0, g)
  | c :: cs, g =>
      if g < c then (0, g)
      else ((locate cs (g - c)).1 + 1, (locate cs (g - c)).2)

/-- A state models a partition of the logical contents into per-chunk parts:
the stored chunks are those the parts denote, the encoder rows record the
partial sample counts, and no part is empty. -/
structure Models (st : EngineState) (parts : List (List (Buffer × Shape))) : Prop where
  chunks_eq : st.chunks = parts.map chunkOf
  rows_eq : ∃ rows, st.enc = some rows ∧
    rows.map Prod.snd = lastsFrom 0 (parts.map List.length)
  parts_pos : ∀ p ∈ parts, p ≠ []

theorem positionsFrom_length (l : List Nat) : ∀ (off : Nat), (positionsFrom off l).length = l.length := by
  induction l with
  | nil => intro off; rfl
  | cons c t ih => intro off; simpa [positionsFrom] using ih (off + c)

theorem positionsFrom_getD (l : List Nat) :
    ∀ (off j : Nat), j < l.length →
      (positionsFrom off l).getD j (0, 0) =
        (off + (l.take j).sum, off + (l.take (j + 1)).sum) := by
  induction l with
  | nil => intro off j h; simp at h
  | cons c t ih =>
      intro off j h
      cases j with
      | zero => simp [positionsFrom]
      | succ m =>
          have := ih (off + c) m (by simpa using h)
          simp only [positionsFrom, List.getD_cons_succ, this, List.take_succ_cons,
            List.sum_cons, Prod.mk.injEq]
          constructor <;> omega

theorem positionsFrom_append_single (l : List Nat) :
    ∀ (off b : Nat),
      positionsFrom off (l ++ [b]) =
        positionsFrom off l ++ [(off + l.sum, off + l.sum + b)] := by
  induction l with
  | nil => intro off b; simp [positionsFrom]
  | cons c t ih =>
      intro off b
      have h1 : positionsFrom off ((c :: t) ++ [b]) =
          (off, off + c) :: positionsFrom (off + c) (t ++ [b]) := rfl
      have h2 : positionsFrom off (c :: t) = (off, off + c) :: positionsFrom (off + c) t := rfl
      rw [h1, h2, ih (off + c) b, List.cons_append]
      simp only [List.sum_cons, ← Nat.add_assoc]

theorem lastsFrom_length (cs : List Nat) : ∀ (acc : Nat), (lastsFrom acc cs).length = cs.length := by
  induction cs with
  | nil => intro acc; rfl
  | cons c t ih => intro acc; simpa [lastsFrom] using ih (acc + c)

theorem lastsFrom_ne_nil (cs : List Nat) (acc : Nat) (h : cs ≠ []) : lastsFrom acc cs ≠ [] := by
  cases cs with
  | nil => exact absurd rfl h
  | cons c t => simp [lastsFrom]

theorem lastsFrom_append_single (cs : List Nat) :
    ∀ (acc c : Nat),
      lastsFrom acc (cs ++ [c]) = lastsFrom acc cs ++ [acc + cs.sum + c - 1] := by
  induction cs with
  | nil => intro acc c; simp [lastsFrom]
  | cons c0 t ih =>
      intro acc c
      have h1 : lastsFrom acc ((c0 :: t) ++ [c]) =
          (acc + c0 - 1) :: lastsFrom (acc + c0) (t ++ [c]) := rfl
      have h2 : lastsFrom acc (c0 :: t) = (acc + c0 - 1) :: lastsFrom (acc + c0) t := rfl
      rw [h1, h2, ih (acc + c0) c, List.cons_append]
      simp only [List.sum_cons, ← Nat.add_assoc]

theorem lastsFrom_getD (cs : List Nat) :
    ∀ (acc j : Nat), j < cs.length →
      (lastsFrom acc cs).getD j 0 = acc + (cs.take (j + 1)).sum - 1 := by
  induction cs with
  | nil => intro acc j h; simp at h
  | cons c t ih =>
      intro acc j h
      cases j with
      | zero => simp [lastsFrom]
      | succ m =>
          have := ih (acc + c) m (by simpa using h)
          simp only [lastsFrom, List.getD_cons_succ, this, List.take_succ_cons, List.sum_cons]
          omega

theorem lastsFrom_getLast? (cs : List Nat) (acc : Nat) (h : cs ≠ []) :
    (lastsFrom acc cs).getLast? = some (acc + cs.sum - 1) := by
  induction cs generalizing acc with
  | nil => exact absurd rfl h
  | cons c t ih =>
      cases ht : t with
      | nil => simp [lastsFrom, ht]
      | cons b u =>
          subst ht
          have H := ih (acc + c) (by simp)
          rw [show lastsFrom acc (c :: b :: u) =
            (acc + c - 1) :: lastsFrom (acc + c) (b :: u) from rfl]
          rw [show lastsFrom (acc + c) (b :: u) =
            (acc + c + b - 1) :: lastsFrom (acc + c + b) u from rfl]
          rw [List.getLast?_cons_cons]
          rw [show ((acc + c + b - 1) :: lastsFrom (acc + c + b) u) =
            lastsFrom (acc + c) (b :: u) from rfl]
          rw [H]
          congr 1
          simp only [List.sum_cons]
          omega

theorem lastsFrom_mem_succ_le (cs : List Nat) :
    ∀ (acc : Nat) (x : Nat), (∀ c ∈ cs, 0 < c) → x ∈ lastsFrom acc cs → x + 1 ≤ acc + cs.sum := by
  induction cs with
  | nil => intro acc x _ hx; simp [lastsFrom] at hx
  | cons c t ih =>
      intro acc x hpos hx
      simp only [lastsFrom, List.mem_cons] at hx
      have hc : 0 < c := hpos c (by simp)
      rcases hx with rfl | hx
      · have ht : (0:Nat) ≤ t.sum := Nat.zero_le _
        simp only [List.sum_cons]
        omega
      · have := ih (acc + c) x (fun d hd => hpos d (by simp [hd])) hx
        simp only [List.sum_cons]
        omega

theorem locate_spec (cs : List Nat) :
    ∀ (g : Nat), (∀ c ∈ cs, 0 < c) → g < cs.sum →
      (locate cs g).1 < cs.length ∧
      g = (cs.take (locate cs g).1).sum + (locate cs g).2 ∧
      (locate cs g).2 < cs.getD (locate cs g).1 0 := by
  induction cs with
  | nil => intro g _ hg; simp at hg
  | cons c t ih =>
      intro g hpos hg
      by_cases hlt : g < c
      · simp [locate, hlt]
      · have hrec := ih (g - c) (fun d hd => hpos d (by simp [hd]))
          (by simp only [List.sum_cons] at hg; omega)
        have hloc : locate (c :: t) g = ((locate t (g - c)).1 + 1, (locate t (g - c)).2) := by
          simp [locate, hlt]
        rw [hloc]
        refine ⟨?_, ?_, ?_⟩
        · show (locate t (g - c)).1 + 1 < (c :: t).length
          simp only [List.length_cons]
          omega
        · show g = ((c :: t).take ((locate t (g - c)).1 + 1)).sum + (locate t (g - c)).2
          simp only [List.take_succ_cons, List.sum_cons]
          omega
        · show (locate t (g - c)).2 < (c :: t).getD ((locate t (g - c)).1 + 1) 0
          simp only [List.getD_cons_succ]
          exact hrec.2.2

theorem locate_snd_of_fst_zero (cs : List Nat) (g : Nat) (h : (locate cs g).1 = 0) :
    (locate cs g).2 = g := by
  cases cs with
  | nil => rfl
  | cons c t =>
      by_cases hlt : g < c
      · simp [locate, hlt]
      · simp [locate, hlt] at h

theorem rowIndexFor_eq_locate (cs : List Nat) :
    ∀ (rows : List (Nat × Nat)) (acc g : Nat),
      rows.map Prod.snd = lastsFrom acc cs → (∀ c ∈ cs, 0 < c) →
      acc ≤ g → g < acc + cs.sum →
      rowIndexFor rows g = (locate cs (g - acc)).1 := by
  induction cs with
  | nil => intro rows acc g hrows _ _ hg; simp at hg; omega
  | cons c t ih =>
      intro rows acc g hrows hpos hacc hg
      cases rows with
      | nil => simp [lastsFrom] at hrows
      | cons r rest =>
          simp only [List.map_cons, lastsFrom] at hrows
          have hr2 : r.2 = acc + c - 1 := (List.cons.injEq _ _ _ _ ▸ hrows).1
          have hrest : rest.map Prod.snd = lastsFrom (acc + c) t :=
            (List.cons.injEq _ _ _ _ ▸ hrows).2
          have hc : 0 < c := hpos c (by simp)
          by_cases hle : g ≤ r.2
          · have hglt : g - acc < c := by omega
            have hloc : locate (c :: t) (g - acc) = (0, g - acc) := by
              simp [locate, hglt]
            rw [show rowIndexFor (r :: rest) g =
              if g ≤ r.2 then 0 else rowIndexFor rest g + 1 from rfl]
            rw [if_pos hle, hloc]
          · have hglt : ¬ (g - acc < c) := by omega
            have hloc : locate (c :: t) (g - acc) =
                ((locate t (g - acc - c)).1 + 1, (locate t (g - acc - c)).2) := by
              simp [locate, hglt]
            rw [show rowIndexFor (r :: rest) g =
              if g ≤ r.2 then 0 else rowIndexFor rest g + 1 from rfl]
            rw [if_neg hle, hloc]
            have := ih rest (acc + c) g hrest (fun d hd => hpos d (by simp [hd]))
              (by omega) (by simp only [List.sum_cons] at hg; omega)
            rw [this, show g - acc - c = g - (acc + c) by omega]

theorem rowIndexFor_eq_length (rows : List (Nat × Nat)) :
    ∀ (g : Nat), (∀ r ∈ rows, r.2 < g) → rowIndexFor rows g = rows.length := by
  induction rows with
  | nil => intro g _; rfl
  | cons r rest ih =>
      intro g h
      have hr : r.2 < g := h r (by simp)
      rw [show rowIndexFor (r :: rest) g = if g ≤ r.2 then 0 else rowIndexFor rest g + 1 from rfl]
      rw [if_neg (by omega), ih g (fun x hx => h x (by simp [hx]))]
      rfl

theorem translate_eq_locate (cs : List Nat) (rows : List (Nat × Nat)) (g : Nat)
    (hrows : rows.map Prod.snd = lastsFrom 0 cs) (hpos : ∀ c ∈ cs, 0 < c)
    (hg : g < cs.sum) :
    translateIndexRelativeToChunks rows g = (locate cs g).2 := by
  have hrow : rowIndexFor rows g = (locate cs g).1 := by
    have := rowIndexFor_eq_locate cs rows 0 g hrows hpos (Nat.zero_le g) (by omega)
    simpa using this
  have hlen : rows.length = cs.length := by
    have := congrArg List.length hrows
    simpa [lastsFrom_length] using this
  obtain ⟨hfst, hsum, hloc⟩ := locate_spec cs g hpos hg
  unfold translateIndexRelativeToChunks
  rw [hrow]
  by_cases h0 : (locate cs g).1 = 0
  · rw [if_pos h0, locate_snd_of_fst_zero cs g h0]
  · rw [if_neg h0]
    obtain ⟨k, hk⟩ : ∃ k, (locate cs g).1 = k + 1 := by
      cases hfst0 : (locate cs g).1 with
      | zero => exact absurd hfst0 h0
      | succ k => exact ⟨k, rfl⟩
    have hklt : k < rows.length := by omega
    have hsndk : (rows.getD k (0, 0)).2 = (rows.map Prod.snd).getD k 0 := by
      rw [getD_map_of_lt Prod.snd rows k 0 (0, 0) hklt]
    have hlasts : (rows.map Prod.snd).getD k 0 = 0 + (cs.take (k + 1)).sum - 1 := by
      rw [hrows, lastsFrom_getD cs 0 k (by omega)]
    have hS : 0 < (cs.take (k + 1)).sum :=
      sum_take_pos cs (k + 1) (by omega) (by omega) hpos
    have hSg : (cs.take (k + 1)).sum ≤ g := by
      rw [hk] at hsum
      omega
    rw [hk]
    simp only [Nat.add_sub_cancel]
    rw [hsndk, hlasts]
    rw [hk] at hsum
    omega

/-! ### Join decomposition lemmas -/

theorem join_length_eq {α : Type} (bufs : List (List α)) :
    (bufs.join).length = (bufs.map List.length).sum := by
  induction bufs with
  | nil => rfl
  | cons b t ih => simp [ih]

theorem take_append_add {α : Type} (l r : List α) :
    ∀ (n : Nat), (l ++ r).take (l.length + n) = l ++ r.take n := by
  induction l with
  | nil => intro n; simp
  | cons a t ih =>
      intro n
      have : t.length + 1 + n = (t.length + n) + 1 := by omega
      simp only [List.cons_append, List.length_cons, this, List.take_succ_cons, ih n]

theorem join_take_sum (bufs : List (List Nat)) :
    ∀ (j : Nat),
      (bufs.join).take (((bufs.map List.length).take j).sum) = (bufs.take j).join := by
  induction bufs with
  | nil => intro j; simp
  | cons b t ih =>
      intro j
      cases j with
      | zero => simp
      | succ m =>
          simp only [List.map_cons, List.take_succ_cons, List.sum_cons, List.join_cons]
          rw [take_append_add, ih m]

theorem join_drop_sum (bufs : List (List Nat)) :
    ∀ (j : Nat),
      (bufs.join).drop (((bufs.map List.length).take j).sum) = (bufs.drop j).join := by
  induction bufs with
  | nil => intro j; simp
  | cons b t ih =>
      intro j
      cases j with
      | zero => simp
      | succ m =>
          simp only [List.map_cons, List.take_succ_cons, List.sum_cons, List.join_cons]
          rw [drop_append_self, ih m]
          rfl

theorem drop_eq_getD_cons {α : Type} (l : List α) :
    ∀ (n : Nat) (d : α), n < l.length → l.drop n = l.getD n d :: l.drop (n + 1) := by
  induction l with
  | nil => intro n d h; simp at h
  | cons a t ih =>
      intro n d h
      cases n with
      | zero => rfl
      | succ m => simpa using ih m d (by simpa using h)

theorem chunkOf_data (part : List (Buffer × Shape)) :
    (chunkOf part).data = (part.map Prod.fst).join := rfl

theorem chunkOf_shapes (part : List (Buffer × Shape)) :
    (chunkOf part).shapes = part.map Prod.snd := rfl

theorem chunkOf_bytePositions (part : List (Buffer × Shape)) :
    (chunkOf part).bytePositions = positionsFrom 0 ((part.map Prod.fst).map List.length) := rfl

theorem join_getD_locate {α : Type} (parts : List (List α)) :
    ∀ (g : Nat) (d : α), g < (parts.map List.length).sum →
      parts.join.getD g d =
        (parts.getD (locate (parts.map List.length) g).1 []).getD
          (locate (parts.map List.length) g).2 d := by
  induction parts with
  | nil => intro g d h; simp at h
  | cons p t ih =>
      intro g d h
      by_cases hlt : g < p.length
      · have hloc : locate ((p :: t).map List.length) g = (0, g) := by
          simp [locate, hlt]
        rw [hloc]
        simp only [List.join_cons, List.getD_cons_zero]
        exact getD_append_left p t.join g d hlt
      · have hloc : locate ((p :: t).map List.length) g =
            ((locate (t.map List.length) (g - p.length)).1 + 1,
             (locate (t.map List.length) (g - p.length)).2) := by
          simp [locate, hlt]
        rw [hloc]
        simp only [List.join_cons, List.getD_cons_succ]
        have happ := getD_append_right p t.join (g - p.length) d
        rw [show p.length + (g - p.length) = g by omega] at happ
        rw [happ]
        refine ih (g - p.length) d ?_
        simp only [List.map_cons, List.sum_cons] at h
        omega

theorem numSamplesOf_eq (st : EngineState) (rows : List (Nat × Nat))
    (h : st.enc = some rows) : numSamplesOf st = encNumSamples rows := by
  unfold numSamplesOf
  rw [h]

/-- Under the invariant, the engine's sample count is the total content
length. -/
theorem numSamples_models (st : EngineState) (parts : List (List (Buffer × Shape)))
    (hm : Models st parts) : numSamplesOf st = (parts.map List.length).sum := by
  obtain ⟨rows, henc, hrows⟩ := hm.rows_eq
  rw [numSamplesOf_eq st rows henc]
  cases hp : parts with
  | nil =>
      subst hp
      simp only [List.map_nil, lastsFrom] at hrows
      have hrnil : rows = [] := by
        cases rows with
        | nil => rfl
        | cons a b => simp at hrows
      subst hrnil
      rfl
  | cons p t =>
      have hne : parts.map List.length ≠ [] := by simp [hp]
      have hlast : (rows.map Prod.snd).getLast? =
          some (0 + (parts.map List.length).sum - 1) := by
        rw [hrows]
        exact lastsFrom_getLast? (parts.map List.length) 0 hne
      rw [getLast?_map_comm Prod.snd rows] at hlast
      cases hr : rows.getLast? with
      | none => rw [hr] at hlast; simp at hlast
      | some r =>
          rw [hr] at hlast
          have hr2 : r.2 = (parts.map List.length).sum - 1 := by
            have h2 : some r.2 = some (0 + (parts.map List.length).sum - 1) := by
              simpa using hlast
            have h3 := Option.some.inj h2
            omega
          have hsumpos : 0 < (parts.map List.length).sum := by
            have hplen : 0 < p.length := by
              have h3 := hm.parts_pos p (by simp [hp])
              cases p with
              | nil => exact absurd rfl h3
              | cons a b => simp
            rw [hp]
            simp only [List.map_cons, List.sum_cons]
            omega
          unfold encNumSamples
          rw [hr]
          show r.2 + 1 = ((p :: t).map List.length).sum
          rw [← hp]
          omega

/-- Under the invariant, reading global sample `g` yields the recorded shape,
the tensor dtype, and the stored buffer (zeros of the recorded shape when the
stored byte range is empty). -/
theorem readSample_models (st : EngineState) (parts : List (List (Buffer × Shape)))
    (hm : Models st parts) (g : Nat) (hg : g < (parts.map List.length).sum) :
    readSample st g =
      ⟨(parts.join.getD g ([], [])).2, dtypeOf st,
        if (parts.join.getD g ([], [])).1.length = 0 then
          List.replicate (parts.join.getD g ([], [])).2.prod 0
        else (parts.join.getD g ([], [])).1⟩ := by
  obtain ⟨rows, henc, hrows⟩ := hm.rows_eq
  have hpos := length_pos_of_mem_pos hm.parts_pos
  have hrowsval : encRows st = rows := by simp [encRows, henc]
  set cs := parts.map List.length with hcs
  obtain ⟨hfst, hsum, hloc⟩ := locate_spec cs g hpos hg
  set k := (locate cs g).1 with hk
  set loc := (locate cs g).2 with hloc2
  have hklen : k < parts.length := by
    have : cs.length = parts.length := by simp [hcs]
    omega
  have hpk : (parts.getD k []).length = cs.getD k 0 := by
    rw [hcs, getD_map_of_lt List.length parts k 0 [] hklen]
  have hrow : rowIndexFor rows g = k := by
    have := rowIndexFor_eq_locate cs rows 0 g hrows hpos (Nat.zero_le g) (by omega)
    simpa using this
  have htrans : translateIndexRelativeToChunks rows g = loc :=
    translate_eq_locate cs rows g hrows hpos hg
  have hchunk : getChunkForSample st g = chunkOf (parts.getD k []) := by
    unfold getChunkForSample
    rw [hrowsval, hrow, hm.chunks_eq]
    exact getD_map_of_lt chunkOf parts k default [] hklen
  set part := parts.getD k [] with hpart
  have hlocpart : loc < part.length := by omega
  have hflat : parts.join.getD g ([], []) = part.getD loc ([], []) := by
    rw [join_getD_locate parts g ([], []) hg]
  set bufs := part.map Prod.fst with hbufs
  set lens := bufs.map List.length with hlens
  have hbufsz : bufs.length = part.length := by
    rw [hbufs, List.length_map]
  have hlensz : lens.length = part.length := by
    rw [hlens, List.length_map, hbufsz]
  have hshape : (chunkOf part).shapes.getD loc [] = (part.getD loc ([], [])).2 := by
    rw [chunkOf_shapes]
    exact getD_map_of_lt Prod.snd part loc [] ([], []) hlocpart
  have hlget : lens.getD loc 0 = (part.getD loc ([], [])).1.length := by
    rw [hlens, getD_map_of_lt List.length bufs loc 0 [] (by omega)]
    rw [hbufs, getD_map_of_lt Prod.fst part loc [] ([], []) hlocpart]
  have hpos2 : (chunkOf part).bytePositions.getD loc (0, 0) =
      ((lens.take loc).sum, (lens.take (loc + 1)).sum) := by
    rw [chunkOf_bytePositions, ← hbufs, ← hlens]
    rw [positionsFrom_getD lens 0 loc (by omega)]
    simp only [Nat.zero_add]
  have hsb : ((chunkOf part).bytePositions.getD loc (0, 0)).1 = (lens.take loc).sum := by
    rw [hpos2]
  have heb : ((chunkOf part).bytePositions.getD loc (0, 0)).2 = (lens.take (loc + 1)).sum := by
    rw [hpos2]
  have hbuf : ((chunkOf part).data.drop ((lens.take loc).sum)).take
      ((lens.take (loc + 1)).sum - (lens.take loc).sum) = (part.getD loc ([], [])).1 := by
    rw [chunkOf_data, ← hbufs]
    have hsucc : (lens.take (loc + 1)).sum = (lens.take loc).sum + lens.getD loc 0 :=
      sum_take_succ lens loc (by omega)
    have hdrop : (bufs.join).drop ((lens.take loc).sum) = (bufs.drop loc).join := by
      have := join_drop_sum bufs loc
      rw [← hlens] at this
      exact this
    rw [hdrop, hsucc]
    simp only [Nat.add_sub_cancel_left]
    have hdcons : bufs.drop loc = bufs.getD loc [] :: bufs.drop (loc + 1) :=
      drop_eq_getD_cons bufs loc [] (by omega)
    rw [hdcons]
    simp only [List.join_cons]
    have hlget2 : lens.getD loc 0 = (bufs.getD loc []).length := by
      rw [hlens, getD_map_of_lt List.length bufs loc 0 [] (by omega)]
    rw [hlget2, take_append_self]
    rw [hbufs, getD_map_of_lt Prod.fst part loc [] ([], []) hlocpart]
  have hstart : readSample st g = readSampleFromChunk st g (chunkOf part) := by
    unfold readSample
    rw [hchunk]
  rw [hstart]
  simp only [readSampleFromChunk, hrowsval, htrans, hshape, hsb, heb, hbuf, hflat]
  by_cases hz : (part[loc]?.getD ([], [])).1 = []
  · simp [hz]
  · by_cases hcomp : st.meta.sampleCompression = true
    · simp [hz, hcomp, decompressArray]
    · simp [hz, hcomp]

/-! ### The append path preserves the invariant -/

theorem maxChunkSizeOf_pos (st : EngineState) : 0 < maxChunkSizeOf st := by
  unfold maxChunkSizeOf
  split
  · decide
  · omega

/-- The merge arithmetic: when the ceiling chunk counts agree and the incoming
buffer is within the chunk budget, the byte allowance covers the whole
buffer. -/
theorem mergeExtra_eq_full (maxSize s b : Nat) (hmax : 0 < maxSize) (hb : b ≤ maxSize)
    (hct : minChunkCtForDataSize maxSize (b + s) = minChunkCtForDataSize maxSize b) :
    min b (maxSize - s) = b := by
  by_cases hsum : b + s ≤ maxSize
  · omega
  · exfalso
    unfold minChunkCtForDataSize at hct
    have h1 : (b + maxSize - 1) / maxSize < 2 := by
      rw [Nat.div_lt_iff_lt_mul hmax]
      omega
    have h2 : 2 ≤ (b + s + maxSize - 1) / maxSize := by
      rw [Nat.le_div_iff_mul_le hmax]
      omega
    omega

theorem tryAppend_none (st : EngineState) (buffer : Buffer) (shape : Shape)
    (hL : st.chunks.getLast? = none) :
    tryAppendingToLastChunk st buffer shape = (st, false) := by
  unfold tryAppendingToLastChunk
  rw [hL]

theorem tryAppend_merge (st : EngineState) (buffer : Buffer) (shape : Shape) (L : Chunk)
    (hL : st.chunks.getLast? = some L) (hmin : L.numDataBytes < minChunkSizeOf st)
    (hct : minChunkCtForDataSize (maxChunkSizeOf st) (buffer.length + L.numDataBytes) =
      minChunkCtForDataSize (maxChunkSizeOf st) buffer.length) :
    tryAppendingToLastChunk st buffer shape =
      ({ st with chunks := st.chunks.dropLast ++
          [L.appendSample (buffer.take (min buffer.length
            (maxChunkSizeOf st - L.numDataBytes))) shape] }, true) := by
  unfold tryAppendingToLastChunk
  rw [hL]
  have hminb : L.isUnderMinSpace (minChunkSizeOf st) = true := by
    unfold Chunk.isUnderMinSpace
    exact decide_eq_true hmin
  simp only [hminb, if_true, hct, if_pos rfl]

theorem tryAppend_no_merge_overmin (st : EngineState) (buffer : Buffer) (shape : Shape)
    (L : Chunk) (hL : st.chunks.getLast? = some L)
    (hmin : ¬ L.numDataBytes < minChunkSizeOf st) :
    tryAppendingToLastChunk st buffer shape = (st, false) := by
  unfold tryAppendingToLastChunk
  rw [hL]
  have hminb : L.isUnderMinSpace (minChunkSizeOf st) = false := by
    unfold Chunk.isUnderMinSpace
    exact decide_eq_false hmin
  simp only [hminb, Bool.false_eq_true, if_false]

theorem tryAppend_no_merge_ct (st : EngineState) (buffer : Buffer) (shape : Shape)
    (L : Chunk) (hL : st.chunks.getLast? = some L)
    (hmin : L.numDataBytes < minChunkSizeOf st)
    (hct : ¬ minChunkCtForDataSize (maxChunkSizeOf st) (buffer.length + L.numDataBytes) =
      minChunkCtForDataSize (maxChunkSizeOf st) buffer.length) :
    tryAppendingToLastChunk st buffer shape = (st, false) := by
  unfold tryAppendingToLastChunk
  rw [hL]
  have hminb : L.isUnderMinSpace (minChunkSizeOf st) = true := by
    unfold Chunk.isUnderMinSpace
    exact decide_eq_true hmin
  simp only [hminb, if_true, if_neg hct]

/-- The merge decision of `_try_appending_to_last_chunk`, characterized. -/
theorem tryAppend_true_iff (st : EngineState) (buffer : Buffer) (shape : Shape) :
    (tryAppendingToLastChunk st buffer shape).2 = true ↔
      ∃ L, st.chunks.getLast? = some L ∧ L.numDataBytes < minChunkSizeOf st ∧
        minChunkCtForDataSize (maxChunkSizeOf st) (buffer.length + L.numDataBytes) =
          minChunkCtForDataSize (maxChunkSizeOf st) buffer.length := by
  constructor
  · intro h
    cases hL : st.chunks.getLast? with
    | none => rw [tryAppend_none st buffer shape hL] at h; simp at h
    | some L =>
        by_cases hmin : L.numDataBytes < minChunkSizeOf st
        · by_cases hct : minChunkCtForDataSize (maxChunkSizeOf st)
              (buffer.length + L.numDataBytes) =
              minChunkCtForDataSize (maxChunkSizeOf st) buffer.length
          · exact ⟨L, rfl, hmin, hct⟩
          · rw [tryAppend_no_merge_ct st buffer shape L hL hmin hct] at h; simp at h
        · rw [tryAppend_no_merge_overmin st buffer shape L hL hmin] at h; simp at h
  · rintro ⟨L, hL, hmin, hct⟩
    rw [tryAppend_merge st buffer shape L hL hmin hct]

theorem tryAppend_false_state (st : EngineState) (buffer : Buffer) (shape : Shape)
    (h : (tryAppendingToLastChunk st buffer shape).2 = false) :
    (tryAppendingToLastChunk st buffer shape).1 = st := by
  cases hL : st.chunks.getLast? with
  | none => rw [tryAppend_none st buffer shape hL]
  | some L =>
      by_cases hmin : L.numDataBytes < minChunkSizeOf st
      · by_cases hct : minChunkCtForDataSize (maxChunkSizeOf st)
            (buffer.length + L.numDataBytes) =
            minChunkCtForDataSize (maxChunkSizeOf st) buffer.length
        · rw [tryAppend_merge st buffer shape L hL hmin hct] at h; simp at h
        · rw [tryAppend_no_merge_ct st buffer shape L hL hmin hct]
      · rw [tryAppend_no_merge_overmin st buffer shape L hL hmin]

theorem chunkOf_single (buffer : Buffer) (shape : Shape) :
    chunkOf [(buffer, shape)] = freshChunk buffer shape := by
  unfold chunkOf freshChunk
  simp [positionsFrom]

theorem chunkOf_append_single (part : List (Buffer × Shape)) (buffer : Buffer)
    (shape : Shape) :
    chunkOf (part ++ [(buffer, shape)]) = (chunkOf part).appendSample buffer shape := by
  unfold chunkOf Chunk.appendSample
  dsimp only
  simp only [List.map_append, List.map_cons, List.map_nil, List.join_append,
    List.join_cons, List.join_nil, List.append_nil, Chunk.mk.injEq]
  refine ⟨trivial, trivial, ?_⟩
  rw [positionsFrom_append_single]
  have hlen : ((part.map Prod.fst).join).length = ((part.map Prod.fst).map List.length).sum :=
    join_length_eq (part.map Prod.fst)
  rw [hlen]
  simp

theorem lastsFrom_inc_last (cs : List Nat) (c acc : Nat) :
    lastsFrom acc (cs ++ [c + 1]) = (lastsFrom acc (cs ++ [c])).dropLast ++ [acc + cs.sum + c] := by
  rw [lastsFrom_append_single cs acc (c + 1), lastsFrom_append_single cs acc c]
  rw [List.dropLast_concat]
  have : acc + cs.sum + (c + 1) - 1 = acc + cs.sum + c := by omega
  rw [this]

theorem appendBytes_eq (st : EngineState) (buffer : Buffer) (shape : Shape) :
    appendBytes st buffer shape =
      if (tryAppendingToLastChunk st buffer shape).2 = true then
        { (tryAppendingToLastChunk st buffer shape).1 with
            enc := some (incrementLastRow
              (encRows (tryAppendingToLastChunk st buffer shape).1) 1) }
      else
        { st with
            chunks := st.chunks ++ [freshChunk buffer shape]
            enc := some (encRows st ++ [(st.nextChunkId, numSamplesOf st)])
            nextChunkId := st.nextChunkId + 1 } := rfl

theorem tryAppend_state_cases (st : EngineState) (buffer : Buffer) (shape : Shape) :
    (tryAppendingToLastChunk st buffer shape).1 = st ∨
      ∃ L, st.chunks.getLast? = some L ∧
        (tryAppendingToLastChunk st buffer shape).1 =
          { st with chunks := st.chunks.dropLast ++
              [L.appendSample (buffer.take (min buffer.length
                (maxChunkSizeOf st - L.numDataBytes))) shape] } := by
  cases hL : st.chunks.getLast? with
  | none => left; rw [tryAppend_none st buffer shape hL]
  | some L =>
      by_cases hmin : L.numDataBytes < minChunkSizeOf st
      · by_cases hct : minChunkCtForDataSize (maxChunkSizeOf st)
            (buffer.length + L.numDataBytes) =
            minChunkCtForDataSize (maxChunkSizeOf st) buffer.length
        · right
          exact ⟨L, rfl, by rw [tryAppend_merge st buffer shape L hL hmin hct]⟩
        · left; rw [tryAppend_no_merge_ct st buffer shape L hL hmin hct]
      · left; rw [tryAppend_no_merge_overmin st buffer shape L hL hmin]

theorem tryAppend_meta (st : EngineState) (buffer : Buffer) (shape : Shape) :
    (tryAppendingToLastChunk st buffer shape).1.meta = st.meta := by
  rcases tryAppend_state_cases st buffer shape with h | ⟨L, _, h⟩ <;> rw [h]

theorem tryAppend_enc (st : EngineState) (buffer : Buffer) (shape : Shape) :
    (tryAppendingToLastChunk st buffer shape).1.enc = st.enc := by
  rcases tryAppend_state_cases st buffer shape with h | ⟨L, _, h⟩ <;> rw [h]

theorem tryAppend_readonly (st : EngineState) (buffer : Buffer) (shape : Shape) :
    (tryAppendingToLastChunk st buffer shape).1.readonly = st.readonly := by
  rcases tryAppend_state_cases st buffer shape with h | ⟨L, _, h⟩ <;> rw [h]

theorem appendBytes_meta (st : EngineState) (buffer : Buffer) (shape : Shape) :
    (appendBytes st buffer shape).meta = st.meta := by
  rw [appendBytes_eq]
  by_cases hdec : (tryAppendingToLastChunk st buffer shape).2 = true
  · rw [if_pos hdec]
    show (tryAppendingToLastChunk st buffer shape).1.meta = st.meta
    exact tryAppend_meta st buffer shape
  · rw [if_neg hdec]

theorem appendBytes_readonly (st : EngineState) (buffer : Buffer) (shape : Shape) :
    (appendBytes st buffer shape).readonly = st.readonly := by
  rw [appendBytes_eq]
  by_cases hdec : (tryAppendingToLastChunk st buffer shape).2 = true
  · rw [if_pos hdec]
    show (tryAppendingToLastChunk st buffer shape).1.readonly = st.readonly
    exact tryAppend_readonly st buffer shape
  · rw [if_neg hdec]

/-- One placement step preserves the invariant and appends the sample to the
logical contents, provided the buffer fits the chunk budget (the codec
contract, spec section 4.5). -/
theorem appendBytes_models (st : EngineState) (parts : List (List (Buffer × Shape)))
    (hm : Models st parts) (buffer : Buffer) (shape : Shape)
    (hb : buffer.length ≤ maxChunkSizeOf st) :
    ∃ parts2, Models (appendBytes st buffer shape) parts2 ∧
      parts2.join = parts.join ++ [(buffer, shape)] := by
  obtain ⟨rows, henc, hrows⟩ := hm.rows_eq
  have hpos := length_pos_of_mem_pos hm.parts_pos
  have hrowsval : encRows st = rows := by simp [encRows, henc]
  by_cases hdec : (tryAppendingToLastChunk st buffer shape).2 = true
  · -- merge into the last chunk
    obtain ⟨L, hL, hmin, hct⟩ := (tryAppend_true_iff st buffer shape).mp hdec
    have hpne : parts ≠ [] := by
      intro hcontra
      rw [hm.chunks_eq, hcontra] at hL
      simp at hL
    obtain ⟨lastPart, initParts, hsplit⟩ :
        ∃ lp ip, parts = ip ++ [lp] := by
      refine ⟨parts.getLast hpne, parts.dropLast, ?_⟩
      exact (List.dropLast_append_getLast hpne).symm
    have hLval : L = chunkOf lastPart := by
      have : st.chunks.getLast? = (parts.map chunkOf).getLast? := by rw [hm.chunks_eq]
      rw [hL, getLast?_map_comm chunkOf parts, hsplit] at this
      simp at this
      exact this
    have hextra : min buffer.length (maxChunkSizeOf st - L.numDataBytes) = buffer.length :=
      mergeExtra_eq_full (maxChunkSizeOf st) L.numDataBytes buffer.length
        (maxChunkSizeOf_pos st) hb hct
    have htry := tryAppend_merge st buffer shape L hL hmin hct
    have htry1 : (tryAppendingToLastChunk st buffer shape).1 =
        { st with chunks := st.chunks.dropLast ++
            [L.appendSample (buffer.take (min buffer.length
              (maxChunkSizeOf st - L.numDataBytes))) shape] } := by
      rw [htry]
    refine ⟨initParts ++ [lastPart ++ [(buffer, shape)]], ?_, ?_⟩
    · have hchunks2 : (appendBytes st buffer shape).chunks =
          (initParts ++ [lastPart ++ [(buffer, shape)]]).map chunkOf := by
        rw [appendBytes_eq, if_pos hdec, htry1]
        show st.chunks.dropLast ++
            [L.appendSample (buffer.take (min buffer.length
              (maxChunkSizeOf st - L.numDataBytes))) shape] = _
        rw [hm.chunks_eq, hsplit]
        simp only [List.map_append, List.map_cons, List.map_nil]
        rw [List.dropLast_concat]
        rw [hextra, List.take_length, hLval, chunkOf_append_single]
      have hrows2 : ∃ rows2, (appendBytes st buffer shape).enc = some rows2 ∧
          rows2.map Prod.snd =
            lastsFrom 0 ((initParts ++ [lastPart ++ [(buffer, shape)]]).map List.length) := by
        have henc2 : (appendBytes st buffer shape).enc =
            some (incrementLastRow (encRows (tryAppendingToLastChunk st buffer shape).1) 1) := by
          rw [appendBytes_eq, if_pos hdec]
        have hrowsval2 : encRows (tryAppendingToLastChunk st buffer shape).1 = rows := by
          simp [encRows, tryAppend_enc st buffer shape, henc]
        rw [henc2, hrowsval2]
        refine ⟨incrementLastRow rows 1, rfl, ?_⟩
        -- rows is nonempty
        have hcne : parts.map List.length ≠ [] := by
          intro hx
          exact hpne (List.map_eq_nil_iff.mp hx)
        have hrne : rows ≠ [] := by
          intro hx
          rw [hx] at hrows
          exact lastsFrom_ne_nil (parts.map List.length) 0 hcne hrows.symm
        obtain ⟨r, hr⟩ : ∃ r, rows.getLast? = some r :=
          Option.ne_none_iff_exists'.mp (by simpa using List.getLast?_isSome.mpr hrne |> Option.isSome_iff_ne_none.mp)
        have hinc : incrementLastRow rows 1 = rows.dropLast ++ [(r.1, r.2 + 1)] := by
          unfold incrementLastRow
          rw [hr]
        rw [hinc]
        rw [List.map_append, ← dropLast_map_comm Prod.snd rows]
        simp only [List.map_cons, List.map_nil]
        -- compute both sides through lastsFrom
        have hcounts : parts.map List.length =
            initParts.map List.length ++ [lastPart.length] := by
          rw [hsplit, List.map_append]
          rfl
        have hcounts2 : (initParts ++ [lastPart ++ [(buffer, shape)]]).map List.length =
            initParts.map List.length ++ [lastPart.length + 1] := by
          rw [List.map_append]
          simp
        have hr2val : r.2 = (parts.map List.length).sum - 1 := by
          have h1 : (rows.map Prod.snd).getLast? = some (0 + (parts.map List.length).sum - 1) := by
            rw [hrows]
            exact lastsFrom_getLast? (parts.map List.length) 0 hcne
          rw [getLast?_map_comm Prod.snd rows, hr] at h1
          have h2 : some r.2 = some (0 + (parts.map List.length).sum - 1) := by simpa using h1
          have h3 := Option.some.inj h2
          omega
        have hsumpos : 0 < (parts.map List.length).sum := by
          have : 0 < lastPart.length := by
            have h4 := hm.parts_pos lastPart (by rw [hsplit]; simp)
            cases lastPart with
            | nil => exact absurd rfl h4
            | cons a b => simp
          rw [hcounts]
          simp only [List.sum_append, List.sum_cons, List.sum_nil]
          omega
        rw [hcounts2, lastsFrom_append_single]
        rw [hrows, hcounts, lastsFrom_append_single]
        rw [List.dropLast_concat]
        have : 0 + (initParts.map List.length).sum + (lastPart.length + 1) - 1 =
            0 + (initParts.map List.length).sum + lastPart.length := by omega
        rw [this]
        have hsums : (parts.map List.length).sum =
            (initParts.map List.length).sum + lastPart.length := by
          rw [hcounts]
          simp [List.sum_append]
        have hr2eq : r.2 + 1 = 0 + (initParts.map List.length).sum + lastPart.length := by
          rw [hr2val]
          omega
        rw [hr2eq]
      refine ⟨hchunks2, hrows2, ?_⟩
      · intro p hp
        rw [List.mem_append] at hp
        rcases hp with hp | hp
        · refine hm.parts_pos p ?_
          rw [hsplit]
          exact List.mem_append.mpr (Or.inl hp)
        · simp only [List.mem_cons, List.mem_singleton] at hp
          rcases hp with rfl | hp
          · simp
          · simp at hp
    · rw [hsplit]
      simp [List.join_append]
  · -- a new chunk is created
    have hfalse : (tryAppendingToLastChunk st buffer shape).2 = false := by
      cases h2 : (tryAppendingToLastChunk st buffer shape).2 with
      | true => exact absurd h2 hdec
      | false => rfl
    refine ⟨parts ++ [[(buffer, shape)]], ?_, ?_⟩
    · have happ : appendBytes st buffer shape =
          { st with
              chunks := st.chunks ++ [freshChunk buffer shape]
              enc := some (encRows st ++ [(st.nextChunkId, numSamplesOf st)])
              nextChunkId := st.nextChunkId + 1 } := by
        rw [appendBytes_eq, if_neg (by simp [hfalse])]
      rw [happ]
      refine ⟨?_, ?_, ?_⟩
      · show st.chunks ++ [freshChunk buffer shape] = (parts ++ [[(buffer, shape)]]).map chunkOf
        rw [hm.chunks_eq, List.map_append]
        simp [chunkOf_single]
      · refine ⟨encRows st ++ [(st.nextChunkId, numSamplesOf st)], rfl, ?_⟩
        have hnum : numSamplesOf st = (parts.map List.length).sum :=
          numSamples_models st parts hm
        have hc2 : (parts ++ [[(buffer, shape)]]).map List.length =
            parts.map List.length ++ [1] := by
          rw [List.map_append]
          rfl
        rw [List.map_append, hrowsval, hrows, hc2, lastsFrom_append_single]
        simp only [List.map_cons, List.map_nil]
        rw [hnum]
        have h5 : 0 + (parts.map List.length).sum + 1 - 1 = (parts.map List.length).sum := by
          omega
        rw [h5]
      · intro p hp
        rw [List.mem_append] at hp
        rcases hp with hp | hp
        · exact hm.parts_pos p hp
        · simp only [List.mem_cons, List.mem_singleton] at hp
          rcases hp with rfl | hp
          · simp
          · simp at hp
    · simp [List.join_append]

theorem updateShapeInterval_maxChunkSize (m : TensorMeta) (shape : Shape) :
    (updateShapeInterval m shape).maxChunkSize = m.maxChunkSize := by
  unfold updateShapeInterval
  cases m.minShape <;> cases m.maxShape <;> rfl

theorem updateShapeInterval_dtype (m : TensorMeta) (shape : Shape) :
    (updateShapeInterval m shape).dtype = m.dtype := by
  unfold updateShapeInterval
  cases m.minShape <;> cases m.maxShape <;> rfl

theorem updateShapeInterval_sampleCompression (m : TensorMeta) (shape : Shape) :
    (updateShapeInterval m shape).sampleCompression = m.sampleCompression := by
  unfold updateShapeInterval
  cases m.minShape <;> cases m.maxShape <;> rfl

theorem updateShapeInterval_length (m : TensorMeta) (shape : Shape) :
    (updateShapeInterval m shape).length = m.length := by
  unfold updateShapeInterval
  cases m.minShape <;> cases m.maxShape <;> rfl

theorem maxChunkSizeOf_meta (st st2 : EngineState)
    (h : st2.meta.maxChunkSize = st.meta.maxChunkSize) :
    maxChunkSizeOf st2 = maxChunkSizeOf st := by
  unfold maxChunkSizeOf
  rw [h]

/-- Models is insensitive to the tensor meta. -/
theorem models_of_meta (st : EngineState) (m : TensorMeta)
    (parts : List (List (Buffer × Shape))) (hm : Models st parts) :
    Models { st with meta := m } parts :=
  ⟨hm.chunks_eq, hm.rows_eq, hm.parts_pos⟩

theorem extendLoop_maxChunkSize (samples : List (Buffer × Shape)) :
    ∀ (st : EngineState),
      (extendLoop st samples).meta.maxChunkSize = st.meta.maxChunkSize := by
  induction samples with
  | nil => intro st; rfl
  | cons s rest ih =>
      intro st
      cases s with
      | mk buffer shape =>
          show (extendLoop (appendBytes _ buffer shape) rest).meta.maxChunkSize = _
          rw [ih, appendBytes_meta]
          exact updateShapeInterval_maxChunkSize st.meta shape

theorem extendLoop_dtype (samples : List (Buffer × Shape)) :
    ∀ (st : EngineState), (extendLoop st samples).meta.dtype = st.meta.dtype := by
  induction samples with
  | nil => intro st; rfl
  | cons s rest ih =>
      intro st
      cases s with
      | mk buffer shape =>
          show (extendLoop (appendBytes _ buffer shape) rest).meta.dtype = _
          rw [ih, appendBytes_meta]
          exact updateShapeInterval_dtype st.meta shape

theorem extendLoop_readonly (samples : List (Buffer × Shape)) :
    ∀ (st : EngineState), (extendLoop st samples).readonly = st.readonly := by
  induction samples with
  | nil => intro st; rfl
  | cons s rest ih =>
      intro st
      cases s with
      | mk buffer shape =>
          show (extendLoop (appendBytes _ buffer shape) rest).readonly = _
          rw [ih, appendBytes_readonly]

/-- The extend loop preserves the invariant and appends its samples in order
to the logical contents. -/
theorem extendLoop_models (samples : List (Buffer × Shape)) :
    ∀ (st : EngineState) (parts : List (List (Buffer × Shape))),
      Models st parts →
      (∀ s ∈ samples, s.1.length ≤ maxChunkSizeOf st) →
      ∃ parts2, Models (extendLoop st samples) parts2 ∧
        parts2.join = parts.join ++ samples := by
  induction samples with
  | nil => intro st parts hm _; exact ⟨parts, hm, by simp⟩
  | cons s rest ih =>
      intro st parts hm hbs
      cases s with
      | mk buffer shape =>
          have hstep : extendLoop st ((buffer, shape) :: rest) =
              extendLoop (appendBytes
                { st with meta :=
                    { updateShapeInterval st.meta shape with
                        length := (updateShapeInterval st.meta shape).length + 1 } }
                buffer shape) rest := rfl
          set stM : EngineState :=
            { st with meta :=
                { updateShapeInterval st.meta shape with
                    length := (updateShapeInterval st.meta shape).length + 1 } } with hstM
          have hmM : Models stM parts := models_of_meta st _ parts hm
          have hmaxM : maxChunkSizeOf stM = maxChunkSizeOf st := by
            apply maxChunkSizeOf_meta
            show (updateShapeInterval st.meta shape).maxChunkSize = st.meta.maxChunkSize
            exact updateShapeInterval_maxChunkSize st.meta shape
          have hb : buffer.length ≤ maxChunkSizeOf stM := by
            rw [hmaxM]
            exact hbs (buffer, shape) (by simp)
          obtain ⟨parts1, hm1, hj1⟩ := appendBytes_models stM parts hmM buffer shape hb
          have hmax1 : maxChunkSizeOf (appendBytes stM buffer shape) = maxChunkSizeOf st := by
            apply maxChunkSizeOf_meta
            rw [appendBytes_meta]
            show (updateShapeInterval st.meta shape).maxChunkSize = st.meta.maxChunkSize
            exact updateShapeInterval_maxChunkSize st.meta shape
          have hbs1 : ∀ s2 ∈ rest, s2.1.length ≤ maxChunkSizeOf (appendBytes stM buffer shape) := by
            intro s2 hs2
            rw [hmax1]
            exact hbs s2 (by simp [hs2])
          obtain ⟨parts2, hm2, hj2⟩ := ih (appendBytes stM buffer shape) parts1 hm1 hbs1
          refine ⟨parts2, ?_, ?_⟩
          · rw [hstep]
            exact hm2
          · rw [hj2, hj1]
            simp

theorem materializeEncoder_of_some (st : EngineState) (rows : List (Nat × Nat))
    (h : st.enc = some rows) : materializeEncoder st = .ok st := by
  unfold materializeEncoder
  rw [h]

theorem materializeEncoder_ok (st st1 : EngineState)
    (h : materializeEncoder st = .ok st1) :
    st1.meta = st.meta ∧ st1.chunks = st.chunks ∧ st1.readonly = st.readonly ∧
      ∃ rows, st1.enc = some rows := by
  unfold materializeEncoder at h
  cases henc : st.enc with
  | some rows =>
      rw [henc] at h
      injection h with heq
      rw [← heq]
      exact ⟨rfl, rfl, rfl, rows, henc⟩
  | none =>
      rw [henc] at h
      by_cases hlen : st.meta.length > 1
      · rw [if_pos hlen] at h
        exact absurd h (by simp)
      · rw [if_neg hlen] at h
        injection h with heq
        rw [← heq]
        exact ⟨rfl, rfl, rfl, [], rfl⟩

theorem extendE_eq_of_some (st : EngineState) (rows : List (Nat × Nat)) (dt : Nat)
    (samples : List (Buffer × Shape)) (henc : st.enc = some rows)
    (hro : st.readonly = false) :
    extendE st dt samples =
      .ok (extendLoop
        (if st.meta.dtype = none then
          { st with meta := { st.meta with dtype := some dt } } else st) samples) := by
  unfold extendE
  rw [if_neg (by rw [hro]; simp), materializeEncoder_of_some st rows henc]

/-- A successful extend preserves the invariant and appends its samples in
order to the logical contents. -/
theorem extendE_models (st : EngineState) (parts : List (List (Buffer × Shape)))
    (dt : Nat) (samples : List (Buffer × Shape)) (st2 : EngineState)
    (hm : Models st parts)
    (hbs : ∀ s ∈ samples, s.1.length ≤ maxChunkSizeOf st)
    (hok : extendE st dt samples = .ok st2) :
    ∃ parts2, Models st2 parts2 ∧ parts2.join = parts.join ++ samples := by
  obtain ⟨rows, henc, hrows⟩ := hm.rows_eq
  have hro : st.readonly = false := by
    cases h2 : st.readonly with
    | false => rfl
    | true =>
        unfold extendE at hok
        rw [if_pos h2] at hok
        exact absurd hok (by simp)
  rw [extendE_eq_of_some st rows dt samples henc hro] at hok
  injection hok with heq
  set stD := (if st.meta.dtype = none then
      { st with meta := { st.meta with dtype := some dt } } else st) with hstD
  have hmD : Models stD parts := by
    rw [hstD]
    split
    · exact models_of_meta st _ parts hm
    · exact hm
  have hmaxD : maxChunkSizeOf stD = maxChunkSizeOf st := by
    rw [hstD]
    split
    · rfl
    · rfl
  obtain ⟨parts2, hm2, hj2⟩ := extendLoop_models samples stD parts hmD
    (by intro s hs; rw [hmaxD]; exact hbs s hs)
  rw [← heq]
  exact ⟨parts2, hm2, hj2⟩

theorem extendE_ok_maxChunkSize (st : EngineState) (dt : Nat)
    (samples : List (Buffer × Shape)) (s1 : EngineState)
    (hok : extendE st dt samples = .ok s1) :
    maxChunkSizeOf s1 = maxChunkSizeOf st := by
  unfold extendE at hok
  by_cases hro : st.readonly = true
  · rw [if_pos hro] at hok
    exact absurd hok (by simp)
  · rw [if_neg hro] at hok
    cases hmat : materializeEncoder st with
    | error e =>
        rw [hmat] at hok
        exact absurd hok (by simp)
    | ok st1 =>
        rw [hmat] at hok
        injection hok with heq
        obtain ⟨hmeta1, _, _, _⟩ := materializeEncoder_ok st st1 hmat
        rw [← heq]
        apply maxChunkSizeOf_meta
        rw [extendLoop_maxChunkSize]
        have hD : (if st1.meta.dtype = none then
            { st1 with meta := { st1.meta with dtype := some dt } }
            else st1).meta.maxChunkSize = st1.meta.maxChunkSize := by
          split
          · rfl
          · rfl
        rw [hD, hmeta1]

/-- A successful sequence of extends, starting from a state modelling some
contents, yields a state modelling those contents followed by all batches in
order. -/
theorem extendAllE_models (batches : List (List (Buffer × Shape))) :
    ∀ (st : EngineState) (parts : List (List (Buffer × Shape))) (dt : Nat)
      (st2 : EngineState),
      Models st parts →
      (∀ b ∈ batches, ∀ s ∈ b, s.1.length ≤ maxChunkSizeOf st) →
      extendAllE st dt batches = .ok st2 →
      ∃ parts2, Models st2 parts2 ∧ parts2.join = parts.join ++ batches.join := by
  induction batches with
  | nil =>
      intro st parts dt st2 hm _ hok
      unfold extendAllE at hok
      simp only [List.foldlM_nil] at hok
      have heq : st = st2 := by
        cases hok
        rfl
      rw [← heq]
      exact ⟨parts, hm, by simp⟩
  | cons b rest ih =>
      intro st parts dt st2 hm hbs hok
      unfold extendAllE at hok
      simp only [List.foldlM_cons] at hok
      cases hE : extendE st dt b with
      | error e =>
          rw [hE] at hok
          exact absurd hok (by simp [Bind.bind, Except.bind])
      | ok s1 =>
          rw [hE] at hok
          have hok2 : rest.foldlM (fun s batch => extendE s dt batch) s1 = .ok st2 := by
            simpa [Bind.bind, Except.bind] using hok
          obtain ⟨parts1, hm1, hj1⟩ := extendE_models st parts dt b s1 hm
            (fun s hs => hbs b (by simp) s hs) hE
          have hmax1 : maxChunkSizeOf s1 = maxChunkSizeOf st :=
            extendE_ok_maxChunkSize st dt b s1 hE
          obtain ⟨parts2, hm2, hj2⟩ := ih s1 parts1 dt st2 hm1
            (by
              intro b2 hb2 s hs
              rw [hmax1]
              exact hbs b2 (by simp [hb2]) s hs)
            hok2
          refine ⟨parts2, hm2, ?_⟩
          rw [hj2, hj1]
          simp

theorem extendE_stInit (maxSize dt : Nat) (samples : List (Buffer × Shape)) :
    extendE (stInit maxSize) dt samples =
      extendE { stInit maxSize with enc := some [] } dt samples := rfl

theorem models_stInitE (maxSize : Nat) :
    Models { stInit maxSize with enc := some [] } [] := by
  refine ⟨rfl, ⟨[], rfl, rfl⟩, ?_⟩
  intro p hp
  simp at hp

/-! ### The update path preserves the invariant -/

theorem list_ext_getD {α : Type} (l1 : List α) :
    ∀ (l2 : List α) (d : α), l1.length = l2.length →
      (∀ i, i < l1.length → l1.getD i d = l2.getD i d) → l1 = l2 := by
  induction l1 with
  | nil =>
      intro l2 d hlen _
      cases l2 with
      | nil => rfl
      | cons b t => simp at hlen
  | cons a t ih =>
      intro l2 d hlen h
      cases l2 with
      | nil => simp at hlen
      | cons b u =>
          have h0 := h 0 (by simp)
          simp only [List.getD_cons_zero] at h0
          subst h0
          congr 1
          refine ih u d (by simpa using hlen) ?_
          intro i hi
          have h1 := h (i + 1) (by simpa using hi)
          simpa using h1

theorem shiftPositions_length (localIndex sb eb b : Nat) (ps : List (Nat × Nat)) :
    ∀ (i0 : Nat), (shiftPositions localIndex sb eb b i0 ps).length = ps.length := by
  induction ps with
  | nil => intro i0; rfl
  | cons p rest ih =>
      obtain ⟨s, e⟩ := p
      intro i0
      simp only [shiftPositions, List.length_cons, ih (i0 + 1)]

theorem shiftPositions_getD (localIndex sb eb b : Nat) (ps : List (Nat × Nat)) :
    ∀ (i0 i : Nat), i < ps.length →
      (shiftPositions localIndex sb eb b i0 ps).getD i (0, 0) =
        (if i0 + i < localIndex then ps.getD i (0, 0)
         else if i0 + i = localIndex then (sb, sb + b)
         else ((ps.getD i (0, 0)).1 + b - (eb - sb),
               (ps.getD i (0, 0)).2 + b - (eb - sb))) := by
  induction ps with
  | nil => intro i0 i h; simp at h
  | cons p rest ih =>
      obtain ⟨s, e⟩ := p
      intro i0 i h
      cases i with
      | zero => simp only [shiftPositions, List.getD_cons_zero, Nat.add_zero]
      | succ m =>
          have hm := ih (i0 + 1) m (by simpa using h)
          simp only [shiftPositions, List.getD_cons_succ, hm]
          have harith : i0 + 1 + m = i0 + (m + 1) := by omega
          rw [harith]

theorem sum_take_set_add (l : List Nat) :
    ∀ (i j b : Nat), j < i → j < l.length →
      ((l.set j b).take i).sum + l.getD j 0 = (l.take i).sum + b := by
  induction l with
  | nil => intro i j b _ h; simp at h
  | cons c t ih =>
      intro i j b hji hj
      cases j with
      | zero =>
          cases i with
          | zero => omega
          | succ m =>
              simp only [List.set_cons_zero, List.take_succ_cons, List.sum_cons,
                List.getD_cons_zero]
              omega
      | succ n =>
          cases i with
          | zero => omega
          | succ m =>
              have hrec := ih m n b (by omega) (by simpa using hj)
              simp only [List.set_cons_succ, List.take_succ_cons, List.sum_cons,
                List.getD_cons_succ]
              omega

theorem sum_take_set_of_le (l : List Nat) (i j b : Nat) (hij : i ≤ j) :
    ((l.set j b).take i).sum = (l.take i).sum := by
  rw [take_set_of_le l i j b hij]

theorem join_append_eq {α : Type} (l1 l2 : List (List α)) :
    (l1 ++ l2).join = l1.join ++ l2.join := by
  induction l1 with
  | nil => simp
  | cons a t ih => simp [ih, List.append_assoc]

theorem Chunk.eq_of_parts (c1 c2 : Chunk) (h1 : c1.data = c2.data)
    (h2 : c1.shapes = c2.shapes) (h3 : c1.bytePositions = c2.bytePositions) : c1 = c2 := by
  cases c1
  cases c2
  simp only at h1 h2 h3
  rw [h1, h2, h3]

theorem updateSample_data (c : Chunk) (j : Nat) (buffer : Buffer) (shape : Shape) :
    (c.updateSample j buffer shape).data =
      c.data.take (c.bytePositions.getD j (0, 0)).1 ++ buffer ++
        c.data.drop (c.bytePositions.getD j (0, 0)).2 := rfl

theorem updateSample_shapes (c : Chunk) (j : Nat) (buffer : Buffer) (shape : Shape) :
    (c.updateSample j buffer shape).shapes = c.shapes.set j shape := rfl

theorem updateSample_bytePositions (c : Chunk) (j : Nat) (buffer : Buffer) (shape : Shape) :
    (c.updateSample j buffer shape).bytePositions =
      shiftPositions j (c.bytePositions.getD j (0, 0)).1
        (c.bytePositions.getD j (0, 0)).2 buffer.length 0 c.bytePositions := rfl

/-- Rewriting one sample of the chunk a part denotes yields the chunk of the
part with that sample replaced. -/
theorem chunkOf_updateSample (part : List (Buffer × Shape)) (j : Nat) (hj : j < part.length)
    (buffer : Buffer) (shape : Shape) :
    (chunkOf part).updateSample j buffer shape = chunkOf (part.set j (buffer, shape)) := by
  set bufs := part.map Prod.fst with hbufs
  set lens := bufs.map List.length with hlens
  have hbufsz : bufs.length = part.length := by rw [hbufs, List.length_map]
  have hlensz : lens.length = part.length := by rw [hlens, List.length_map, hbufsz]
  have hposj : (chunkOf part).bytePositions.getD j (0, 0) =
      ((lens.take j).sum, (lens.take (j + 1)).sum) := by
    rw [chunkOf_bytePositions, ← hbufs, ← hlens, positionsFrom_getD lens 0 j (by omega)]
    simp only [Nat.zero_add]
  have hsb : ((chunkOf part).bytePositions.getD j (0, 0)).1 = (lens.take j).sum := by
    rw [hposj]
  have heb : ((chunkOf part).bytePositions.getD j (0, 0)).2 = (lens.take (j + 1)).sum := by
    rw [hposj]
  have hsucc : (lens.take (j + 1)).sum = (lens.take j).sum + lens.getD j 0 :=
    sum_take_succ lens j (by omega)
  have hlensb : (part.set j (buffer, shape)).map Prod.fst = bufs.set j buffer := by
    rw [map_set_comm Prod.fst part j (buffer, shape), ← hbufs]
  have hlensl : ((part.set j (buffer, shape)).map Prod.fst).map List.length =
      lens.set j buffer.length := by
    rw [hlensb, map_set_comm List.length bufs j buffer, ← hlens]
  apply Chunk.eq_of_parts
  · rw [updateSample_data, hsb, heb, chunkOf_data, chunkOf_data, hlensb]
    rw [set_eq_take_cons_drop bufs j buffer (by omega)]
    rw [join_append_eq]
    simp only [List.join_cons]
    have ht := join_take_sum bufs j
    rw [← hlens] at ht
    have hd := join_drop_sum bufs (j + 1)
    rw [← hlens] at hd
    rw [← hbufs, ht, hd]
    simp [List.append_assoc]
  · rw [updateSample_shapes, chunkOf_shapes, chunkOf_shapes,
      map_set_comm Prod.snd part j (buffer, shape)]
  · rw [updateSample_bytePositions, hsb, heb, chunkOf_bytePositions, chunkOf_bytePositions,
      hlensl, ← hbufs, ← hlens]
    apply list_ext_getD _ _ (0, 0)
    · rw [shiftPositions_length, positionsFrom_length, positionsFrom_length]
      rw [List.length_set]
    · intro i hi
      have hilen : i < lens.length := by
        rw [shiftPositions_length, positionsFrom_length] at hi
        exact hi
      rw [shiftPositions_getD _ _ _ _ _ 0 i (by rw [positionsFrom_length]; exact hilen)]
      rw [positionsFrom_getD lens 0 i hilen]
      rw [positionsFrom_getD (lens.set j buffer.length) 0 i (by rw [List.length_set]; exact hilen)]
      simp only [Nat.zero_add]
      by_cases hij : i < j
      · rw [if_pos (by omega)]
        rw [sum_take_set_of_le lens i j buffer.length (by omega)]
        rw [sum_take_set_of_le lens (i + 1) j buffer.length (by omega)]
      · by_cases hieq : i = j
        · subst hieq
          rw [if_neg (by omega), if_pos (by omega)]
          have h1 : ((lens.set i buffer.length).take i).sum = (lens.take i).sum :=
            sum_take_set_of_le lens i i buffer.length (by omega)
          have h2 : ((lens.set i buffer.length).take (i + 1)).sum =
              (lens.take i).sum + buffer.length := by
            rw [sum_take_succ (lens.set i buffer.length) i
              (by rw [List.length_set]; exact hilen)]
            rw [h1, getD_set_self lens i buffer.length 0 hilen]
          rw [h1, h2]
        · rw [if_neg (by omega), if_neg (by omega)]
          have hji : j < i := by omega
          have hadd1 : ((lens.set j buffer.length).take i).sum + lens.getD j 0 =
              (lens.take i).sum + buffer.length :=
            sum_take_set_add lens i j buffer.length hji (by omega)
          have hadd2 : ((lens.set j buffer.length).take (i + 1)).sum + lens.getD j 0 =
              (lens.take (i + 1)).sum + buffer.length :=
            sum_take_set_add lens (i + 1) j buffer.length (by omega) (by omega)
          have hmono1 : (lens.take (j + 1)).sum ≤ (lens.take i).sum :=
            sum_take_le_sum_take lens (j + 1) i (by omega)
          have hmono2 : (lens.take (j + 1)).sum ≤ (lens.take (i + 1)).sum :=
            sum_take_le_sum_take lens (j + 1) (i + 1) (by omega)
          simp only [Prod.mk.injEq]
          constructor <;> omega

theorem mem_of_mem_set {α : Type} (l : List α) :
    ∀ (n : Nat) (x a : α), a ∈ l.set n x → a ∈ l ∨ a = x := by
  induction l with
  | nil => intro n x a h; simp at h
  | cons c t ih =>
      intro n x a h
      cases n with
      | zero =>
          simp only [List.set_cons_zero, List.mem_cons] at h
          rcases h with rfl | h
          · right; rfl
          · left; simp [h]
      | succ m =>
          simp only [List.set_cons_succ, List.mem_cons] at h
          rcases h with rfl | h
          · left; simp
          · rcases ih m x a h with h2 | h2
            · left; simp [h2]
            · right; exact h2

theorem join_set_flat {α : Type} (parts : List (List α)) :
    ∀ (k : Nat), k < parts.length → ∀ (j : Nat) (x : α), j < (parts.getD k []).length →
      (parts.set k ((parts.getD k []).set j x)).join =
        parts.join.set (((parts.map List.length).take k).sum + j) x := by
  induction parts with
  | nil => intro k hk; simp at hk
  | cons p t ih =>
      intro k hk j x hj
      cases k with
      | zero =>
          simp only [List.getD_cons_zero] at hj
          show p.set j x ++ t.join = (p ++ t.join).set (0 + j) x
          rw [Nat.zero_add, set_append_left_of_lt p t.join j x hj]
      | succ m =>
          simp only [List.getD_cons_succ] at hj
          show p ++ (t.set m ((t.getD m []).set j x)).join =
            (p ++ t.join).set (p.length + (List.take m (t.map List.length)).sum + j) x
          rw [ih m (by simpa using hk) j x hj]
          have harith : p.length + (List.take m (t.map List.length)).sum + j =
              p.length + ((List.take m (t.map List.length)).sum + j) := by omega
          rw [harith, set_append_right_self]

/-- One update-loop step (the chunk rewrite performed for one addressed
sample) preserves the invariant, keeps the per-chunk sample counts, and leaves
every other flat entry unchanged. -/
theorem updateStep_models (st : EngineState) (parts : List (List (Buffer × Shape)))
    (hm : Models st parts) (g : Nat) (buffer : Buffer) (shape : Shape) :
    ∃ parts2,
      Models { st with
          meta := updateShapeInterval st.meta shape
          chunks := st.chunks.set (rowIndexFor (encRows st) g)
            ((st.chunks.getD (rowIndexFor (encRows st) g) default).updateSample
              (translateIndexRelativeToChunks (encRows st) g) buffer shape) } parts2 ∧
      parts2.map List.length = parts.map List.length ∧
      (∀ g2, g2 ≠ g → parts2.join.getD g2 ([], []) = parts.join.getD g2 ([], [])) := by
  obtain ⟨rows, henc, hrows⟩ := hm.rows_eq
  have hpos := length_pos_of_mem_pos hm.parts_pos
  have hrowsval : encRows st = rows := by simp [encRows, henc]
  have hrowlen : rows.length = parts.length := by
    have h1 := congrArg List.length hrows
    simp only [List.length_map] at h1
    rw [h1, lastsFrom_length, List.length_map]
  have hchunkslen : st.chunks.length = parts.length := by
    rw [hm.chunks_eq, List.length_map]
  by_cases hg : g < (parts.map List.length).sum
  · -- the addressed sample exists: one flat entry is replaced
    obtain ⟨hfst, hsum, hloc⟩ := locate_spec (parts.map List.length) g hpos hg
    set k := (locate (parts.map List.length) g).1 with hk
    set loc := (locate (parts.map List.length) g).2 with hloc2
    have hklen : k < parts.length := by
      have : (parts.map List.length).length = parts.length := by simp
      omega
    have hrow : rowIndexFor rows g = k := by
      have := rowIndexFor_eq_locate (parts.map List.length) rows 0 g hrows hpos
        (Nat.zero_le g) (by omega)
      simpa using this
    have htrans : translateIndexRelativeToChunks rows g = loc :=
      translate_eq_locate (parts.map List.length) rows g hrows hpos hg
    set part := parts.getD k [] with hpart
    have hlocpart : loc < part.length := by
      have h1 := getD_map_of_lt List.length parts k 0 [] hklen
      rw [hpart]
      omega
    have hcval : st.chunks.getD k default = chunkOf part := by
      rw [hm.chunks_eq]
      exact getD_map_of_lt chunkOf parts k default [] hklen
    refine ⟨parts.set k (part.set loc (buffer, shape)), ⟨?_, ?_, ?_⟩, ?_, ?_⟩
    · -- chunks
      show st.chunks.set (rowIndexFor (encRows st) g) _ = _
      rw [hrowsval, hrow, htrans, hcval, hm.chunks_eq]
      rw [chunkOf_updateSample part loc hlocpart buffer shape]
      rw [map_set_comm chunkOf parts k (part.set loc (buffer, shape))]
    · -- encoder rows are unchanged, and so are the counts
      refine ⟨rows, henc, ?_⟩
      rw [hrows]
      have hcounts : (parts.set k (part.set loc (buffer, shape))).map List.length =
          parts.map List.length := by
        rw [map_set_comm List.length parts k (part.set loc (buffer, shape))]
        have hlen2 : (part.set loc (buffer, shape)).length = part.length := by
          rw [List.length_set]
        rw [hlen2]
        have hgetd : part.length = (parts.map List.length).getD k 0 := by
          rw [hpart]
          exact (getD_map_of_lt List.length parts k 0 [] hklen).symm
        rw [hgetd]
        exact set_getD_self (parts.map List.length) k 0 (by simpa using hklen)
      rw [hcounts]
    · intro p hp
      rcases mem_of_mem_set parts k (part.set loc (buffer, shape)) p hp with h2 | h2
      · exact hm.parts_pos p h2
      · subst h2
        intro hcontra
        have : part.length = 0 := by
          rw [← List.length_set part loc (buffer, shape), hcontra]
          rfl
        omega
    · -- counts preserved
      rw [map_set_comm List.length parts k (part.set loc (buffer, shape))]
      have hlen2 : (part.set loc (buffer, shape)).length = part.length := by
        rw [List.length_set]
      rw [hlen2]
      have hgetd : part.length = (parts.map List.length).getD k 0 := by
        rw [hpart]
        exact (getD_map_of_lt List.length parts k 0 [] hklen).symm
      rw [hgetd]
      exact set_getD_self (parts.map List.length) k 0 (by simpa using hklen)
    · -- untouched entries
      intro g2 hg2
      have hjoin : (parts.set k (part.set loc (buffer, shape))).join =
          parts.join.set (((parts.map List.length).take k).sum + loc) (buffer, shape) := by
        rw [hpart]
        exact join_set_flat parts k hklen loc (buffer, shape) (by rw [← hpart]; omega)
      rw [hjoin]
      have hflatpos : ((parts.map List.length).take k).sum + loc = g := by omega
      rw [hflatpos]
      exact getD_set_ne parts.join g g2 (buffer, shape) ([], []) (Ne.symm hg2)
  · -- the index is out of range: the chunk list is unchanged
    have hge : rowIndexFor rows g = rows.length := by
      apply rowIndexFor_eq_length
      intro r hr
      have hmem : r.2 ∈ lastsFrom 0 (parts.map List.length) := by
        rw [← hrows]
        exact List.mem_map.mpr ⟨r, hr, rfl⟩
      have := lastsFrom_mem_succ_le (parts.map List.length) 0 r.2 hpos hmem
      omega
    have hnoop : st.chunks.set (rowIndexFor (encRows st) g)
        ((st.chunks.getD (rowIndexFor (encRows st) g) default).updateSample
          (translateIndexRelativeToChunks (encRows st) g) buffer shape) = st.chunks := by
      apply set_of_length_le
      rw [hrowsval, hge]
      omega
    refine ⟨parts, ⟨?_, ?_, ?_⟩, rfl, fun _ _ => rfl⟩
    · show st.chunks.set _ _ = _
      rw [hnoop, hm.chunks_eq]
    · exact ⟨rows, henc, hrows⟩
    · exact hm.parts_pos

theorem updateLoop_enc (pairs : List (Nat × (Buffer × Shape))) :
    ∀ (st : EngineState), (updateLoop st pairs).1.enc = st.enc := by
  induction pairs with
  | nil => intro st; rfl
  | cons pr rest ih => intro st; exact ih _

theorem updateLoop_maxChunkSize (pairs : List (Nat × (Buffer × Shape))) :
    ∀ (st : EngineState),
      (updateLoop st pairs).1.meta.maxChunkSize = st.meta.maxChunkSize := by
  induction pairs with
  | nil => intro st; rfl
  | cons pr rest ih =>
      intro st
      rw [show (updateLoop st (pr :: rest)).1 =
        (updateLoop { st with
          meta := updateShapeInterval st.meta pr.2.2
          chunks := st.chunks.set (rowIndexFor (encRows st) pr.1)
            ((st.chunks.getD (rowIndexFor (encRows st) pr.1) default).updateSample
              (translateIndexRelativeToChunks (encRows st) pr.1) pr.2.1 pr.2.2) } rest).1
        from rfl]
      rw [ih]
      exact updateShapeInterval_maxChunkSize st.meta pr.2.2

theorem updateLoop_dtype (pairs : List (Nat × (Buffer × Shape))) :
    ∀ (st : EngineState), (updateLoop st pairs).1.meta.dtype = st.meta.dtype := by
  induction pairs with
  | nil => intro st; rfl
  | cons pr rest ih =>
      intro st
      rw [show (updateLoop st (pr :: rest)).1 =
        (updateLoop { st with
          meta := updateShapeInterval st.meta pr.2.2
          chunks := st.chunks.set (rowIndexFor (encRows st) pr.1)
            ((st.chunks.getD (rowIndexFor (encRows st) pr.1) default).updateSample
              (translateIndexRelativeToChunks (encRows st) pr.1) pr.2.1 pr.2.2) } rest).1
        from rfl]
      rw [ih]
      exact updateShapeInterval_dtype st.meta pr.2.2

/-- The update loop preserves the invariant, the per-chunk sample counts, and
every flat entry whose global index is not addressed by any pair. -/
theorem updateLoop_models (pairs : List (Nat × (Buffer × Shape))) :
    ∀ (st : EngineState) (parts : List (List (Buffer × Shape))), Models st parts →
      ∃ parts2, Models (updateLoop st pairs).1 parts2 ∧
        parts2.map List.length = parts.map List.length ∧
        (∀ g2, (∀ pr ∈ pairs, pr.1 ≠ g2) →
          parts2.join.getD g2 ([], []) = parts.join.getD g2 ([], [])) := by
  induction pairs with
  | nil => intro st parts hm; exact ⟨parts, hm, rfl, fun _ _ => rfl⟩
  | cons pr rest ih =>
      intro st parts hm
      obtain ⟨parts1, hm1, hc1, hu1⟩ :=
        updateStep_models st parts hm pr.1 pr.2.1 pr.2.2
      obtain ⟨parts2, hm2, hc2, hu2⟩ := ih _ parts1 hm1
      refine ⟨parts2, ?_, ?_, ?_⟩
      · exact hm2
      · rw [hc2, hc1]
      · intro g2 hg2
        rw [hu2 g2 (fun q hq => hg2 q (by simp [hq]))]
        exact hu1 g2 (Ne.symm (hg2 pr (by simp)))

theorem updateE_eq_ok (st st1 : EngineState) (idxs : List Nat)
    (samples : List (Buffer × Shape)) (hro : st.readonly = false)
    (hmat : materializeEncoder st = .ok st1) (hlen : idxs.length = samples.length) :
    updateE st idxs samples =
      .ok ((updateLoop st1 (idxs.zip samples)).1,
        warnIfSuboptimalChunks (updateLoop st1 (idxs.zip samples)).2
          (minChunkSizeOf (updateLoop st1 (idxs.zip samples)).1)
          (maxChunkSizeOf (updateLoop st1 (idxs.zip samples)).1)) := by
  unfold updateE
  rw [if_neg (by rw [hro]; simp), hmat]
  show (if idxs.length = samples.length then _ else _) = _
  rw [if_pos hlen]

theorem updateE_err_len (st st1 : EngineState) (idxs : List Nat)
    (samples : List (Buffer × Shape)) (hro : st.readonly = false)
    (hmat : materializeEncoder st = .ok st1)
    (hlen : ¬ idxs.length = samples.length) :
    updateE st idxs samples = .error .valueError := by
  unfold updateE
  rw [if_neg (by rw [hro]; simp), hmat]
  show (if idxs.length = samples.length then _ else _) = _
  rw [if_neg hlen]

theorem updateE_ok_elim (st : EngineState) (idxs : List Nat)
    (samples : List (Buffer × Shape)) (st2 : EngineState) (w : Nat)
    (hok : updateE st idxs samples = .ok (st2, w)) :
    ∃ st1, materializeEncoder st = .ok st1 ∧ st.readonly = false ∧
      idxs.length = samples.length ∧
      st2 = (updateLoop st1 (idxs.zip samples)).1 ∧
      w = warnIfSuboptimalChunks (updateLoop st1 (idxs.zip samples)).2
        (minChunkSizeOf (updateLoop st1 (idxs.zip samples)).1)
        (maxChunkSizeOf (updateLoop st1 (idxs.zip samples)).1) := by
  have hro : st.readonly = false := by
    cases h2 : st.readonly with
    | false => rfl
    | true =>
        unfold updateE at hok
        rw [if_pos h2] at hok
        exact absurd hok (by simp)
  cases hmat : materializeEncoder st with
  | error e =>
      unfold updateE at hok
      rw [if_neg (by rw [hro]; simp), hmat] at hok
      exact absurd hok (by simp)
  | ok st1 =>
      by_cases hlen : idxs.length = samples.length
      · rw [updateE_eq_ok st st1 idxs samples hro hmat hlen] at hok
        injection hok with heq
        have h1 := congrArg Prod.fst heq
        have h2 := congrArg Prod.snd heq
        simp only at h1 h2
        exact ⟨st1, rfl, hro, hlen, h1.symm, h2.symm⟩
      · rw [updateE_err_len st st1 idxs samples hro hmat hlen] at hok
        exact absurd hok (by simp)

theorem warnIfSuboptimalChunks_le_one (l : List Nat) (mn mx : Nat) :
    warnIfSuboptimalChunks l mn mx ≤ 1 := by
  induction l with
  | nil => exact Nat.zero_le 1
  | cons n rest ih =>
      unfold warnIfSuboptimalChunks
      split
      · exact Nat.le_refl 1
      · exact ih

theorem warnIfSuboptimalChunks_eq_one_iff (l : List Nat) (mn mx : Nat) :
    warnIfSuboptimalChunks l mn mx = 1 ↔ ∃ n ∈ l, IsSuboptimal n mn mx := by
  induction l with
  | nil =>
      constructor
      · intro h; exact absurd h (by simp [warnIfSuboptimalChunks])
      · rintro ⟨n, hn, _⟩; simp at hn
  | cons n rest ih =>
      unfold warnIfSuboptimalChunks
      split
      · constructor
        · intro _
          exact ⟨n, by simp, by assumption⟩
        · intro _; rfl
      · constructor
        · intro h
          obtain ⟨m, hm, hsub⟩ := ih.mp h
          exact ⟨m, by simp [hm], hsub⟩
        · rintro ⟨m, hm, hsub⟩
          apply ih.mpr
          simp only [List.mem_cons] at hm
          rcases hm with rfl | hm
          · exact absurd hsub (by assumption)
          · exact ⟨m, hm, hsub⟩

theorem updateLoop_records_tail (pairs : List (Nat × (Buffer × Shape))) :
    ∀ (st : EngineState),
      (∀ pr ∈ pairs, rowIndexFor (encRows st) pr.1 = (encRows st).length - 1) →
      (updateLoop st pairs).2 = [] := by
  induction pairs with
  | nil => intro st _; rfl
  | cons pr rest ih =>
      intro st h
      have hk : rowIndexFor (encRows st) pr.1 = (encRows st).length - 1 :=
        h pr (by simp)
      have hstep : (updateLoop st (pr :: rest)).2 =
          (if rowIndexFor (encRows st) pr.1 ≠ (encRows st).length - 1 then
            [((st.chunks.getD (rowIndexFor (encRows st) pr.1) default).updateSample
              (translateIndexRelativeToChunks (encRows st) pr.1) pr.2.1 pr.2.2).nbytes]
          else []) ++
          (updateLoop { st with
            meta := updateShapeInterval st.meta pr.2.2
            chunks := st.chunks.set (rowIndexFor (encRows st) pr.1)
              ((st.chunks.getD (rowIndexFor (encRows st) pr.1) default).updateSample
                (translateIndexRelativeToChunks (encRows st) pr.1) pr.2.1 pr.2.2) }
            rest).2 := rfl
      rw [hstep, if_neg (by simp [hk])]
      simp only [List.nil_append]
      apply ih
      intro q hq
      have henc2 : encRows { st with
          meta := updateShapeInterval st.meta pr.2.2
          chunks := st.chunks.set (rowIndexFor (encRows st) pr.1)
            ((st.chunks.getD (rowIndexFor (encRows st) pr.1) default).updateSample
              (translateIndexRelativeToChunks (encRows st) pr.1) pr.2.1 pr.2.2) } =
          encRows st := rfl
      rw [henc2]
      exact h q (by simp [hq])

/-! ### Claim C1: reads round-trip appended data -/

theorem getD_mem {α : Type} (l : List α) :
    ∀ (n : Nat) (d : α), n < l.length → l.getD n d ∈ l := by
  induction l with
  | nil => intro n d h; simp at h
  | cons a t ih =>
      intro n d h
      cases n with
      | zero => simp
      | succ m =>
          simp only [List.getD_cons_succ]
          exact List.mem_cons.mpr (Or.inr (ih m d (by simpa using h)))

theorem extendAllE_stInit (maxSize dt : Nat) (b : List (Buffer × Shape))
    (rest : List (List (Buffer × Shape))) :
    extendAllE (stInit maxSize) dt (b :: rest) =
      extendAllE { stInit maxSize with enc := some [] } dt (b :: rest) := by
  unfold extendAllE
  simp only [List.foldlM_cons]
  rw [extendE_stInit maxSize dt b]

/-- A successful update keeps the sample count and the reads of every global
index it does not address. -/
theorem updateE_preserves_reads (st st1 : EngineState)
    (parts : List (List (Buffer × Shape)))
    (hmat : materializeEncoder st = .ok st1) (hm1 : Models st1 parts)
    (idxs : List Nat) (usamples : List (Buffer × Shape)) (st2 : EngineState) (w : Nat)
    (hok : updateE st idxs usamples = .ok (st2, w)) :
    numSamplesOf st2 = (parts.map List.length).sum ∧
    (∀ g, g < numSamplesOf st2 → g ∉ idxs → readSample st2 g = readSample st1 g) := by
  obtain ⟨st1b, hmatb, hro, hlen, hst2, hw⟩ := updateE_ok_elim st idxs usamples st2 w hok
  rw [hmat] at hmatb
  injection hmatb with hb
  subst hb
  subst hst2
  obtain ⟨parts2, hm2, hc2, hu2⟩ := updateLoop_models (idxs.zip usamples) st1 parts hm1
  have hnum2 : numSamplesOf (updateLoop st1 (idxs.zip usamples)).1 =
      (parts2.map List.length).sum := numSamples_models _ parts2 hm2
  have hsums : (parts2.map List.length).sum = (parts.map List.length).sum := by rw [hc2]
  refine ⟨by omega, ?_⟩
  intro g hg hgni
  have hg2 : g < (parts2.map List.length).sum := by omega
  have hgp : g < (parts.map List.length).sum := by omega
  have hr2 := readSample_models _ parts2 hm2 g hg2
  have hr1 := readSample_models st1 parts hm1 g hgp
  have hentry : parts2.join.getD g ([], []) = parts.join.getD g ([], []) := by
    apply hu2
    intro pr hpr
    obtain ⟨a, bs⟩ := pr
    have hmem := List.of_mem_zip hpr
    intro hcontra
    apply hgni
    rw [← hcontra]
    exact hmem.1
  have hdt : dtypeOf (updateLoop st1 (idxs.zip usamples)).1 = dtypeOf st1 := by
    unfold dtypeOf
    rw [updateLoop_dtype]
  rw [hr2, hr1, hentry, hdt]

/-- C1: for every global index `g` below the sample count, reading `g` back
returns the buffer and shape originally appended at `g`, decoded with the
tensor dtype, as long as no update touched `g`; and after an update, every
global index not addressed by the update still reads exactly what it read
before.  The hypotheses are the sample codec contract (spec section 4.5):
serialized buffers fit the chunk budget and carry one byte per element of
their shape. -/
theorem c1_read_roundtrip (maxSize dt : Nat) (batches : List (List (Buffer × Shape)))
    (st : EngineState)
    (hok : extendAllE (stInit maxSize) dt batches = .ok st)
    (hbytes : ∀ b ∈ batches, ∀ s ∈ b, s.1.length ≤ maxChunkSizeOf (stInit maxSize))
    (hwf : ∀ b ∈ batches, ∀ s ∈ b, s.1.length = s.2.prod) :
    numSamplesOf st = batches.join.length ∧
    (∀ g, g < numSamplesOf st →
      readSample st g =
        ⟨(batches.join.getD g ([], [])).2, dtypeOf st, (batches.join.getD g ([], [])).1⟩) ∧
    (∀ idxs usamples st2 w, updateE st idxs usamples = .ok (st2, w) →
      ∀ g, g < numSamplesOf st2 → g ∉ idxs → readSample st2 g = readSample st g) := by
  cases batches with
  | nil =>
      unfold extendAllE at hok
      simp only [List.foldlM_nil] at hok
      have hst : stInit maxSize = st := by
        cases hok
        rfl
      subst hst
      have hzero : numSamplesOf (stInit maxSize) = 0 := rfl
      refine ⟨rfl, ?_, ?_⟩
      · intro g hg
        rw [hzero] at hg
        omega
      · intro idxs usamples st2 w hok2 g hg hgni
        have hmat : materializeEncoder (stInit maxSize) =
            .ok { stInit maxSize with enc := some [] } := rfl
        obtain ⟨hn2, hr2⟩ := updateE_preserves_reads (stInit maxSize)
          { stInit maxSize with enc := some [] } [] hmat (models_stInitE maxSize)
          idxs usamples st2 w hok2
        simp only [List.map_nil, List.sum_nil] at hn2
        omega
  | cons b rest =>
      rw [extendAllE_stInit maxSize dt b rest] at hok
      have hminit : Models { stInit maxSize with enc := some [] } [] :=
        models_stInitE maxSize
      have hmaxeq : maxChunkSizeOf { stInit maxSize with enc := some [] } =
          maxChunkSizeOf (stInit maxSize) := rfl
      obtain ⟨parts, hm, hj⟩ := extendAllE_models (b :: rest)
        { stInit maxSize with enc := some [] } [] dt st hminit
        (by
          intro b2 hb2 s hs
          rw [hmaxeq]
          exact hbytes b2 hb2 s hs)
        hok
      simp only [List.join_nil, List.nil_append] at hj
      have hnum : numSamplesOf st = (parts.map List.length).sum :=
        numSamples_models st parts hm
      have hlenj : (parts.map List.length).sum = (b :: rest).join.length := by
        rw [← hj, join_length_eq]
      refine ⟨by omega, ?_, ?_⟩
      · intro g hg
        have hgp : g < (parts.map List.length).sum := by omega
        have hr := readSample_models st parts hm g hgp
        rw [hj] at hr
        set entry := (b :: rest).join.getD g ([], []) with hentry
        have hmem : entry ∈ (b :: rest).join := by
          rw [hentry]
          apply getD_mem
          omega
        obtain ⟨b2, hb2, hsb2⟩ := List.mem_join.mp hmem
        have hwfe : entry.1.length = entry.2.prod := hwf b2 hb2 entry hsb2
        rw [hr]
        by_cases hz : entry.1.length = 0
        · rw [if_pos hz]
          have hnil : entry.1 = [] := List.eq_nil_of_length_eq_zero hz
          rw [hnil]
          rw [show entry.2.prod = 0 by omega]
          rfl
        · rw [if_neg hz]
      · intro idxs usamples st2 w hok2 g hg hgni
        obtain ⟨rows, henc, hrows⟩ := hm.rows_eq
        obtain ⟨hn2, hr2⟩ := updateE_preserves_reads st st parts
          (materializeEncoder_of_some st rows henc) hm idxs usamples st2 w hok2
        exact hr2 g hg hgni

/-- A concrete two-sample tensor produced by one extend (max chunk size 8,
dtype code 3): both samples merged into one chunk. -/
def c1wState : EngineState :=
  { meta :=
      {
        dtype := some 3
        length := 2
        minShape := some [1]
        maxShape := some [2]
        maxChunkSize := 8
        sampleCompression := false }
    enc := some [(0, 1)]
    chunks := [⟨[5, 6, 7], [[1], [2]], [(0, 1), (1, 3)]⟩]
    nextChunkId := 1, readonly := false }

theorem c1_read_roundtrip_witness :
    extendAllE (stInit 8) 3 [[(([5] : Buffer), ([1] : Shape)), ([6, 7], [2])]] =
      .ok c1wState ∧
    (numSamplesOf c1wState =
        ([[(([5] : Buffer), ([1] : Shape)), ([6, 7], [2])]].join).length ∧
      (∀ g, g < numSamplesOf c1wState →
        readSample c1wState g =
          ⟨(([[(([5] : Buffer), ([1] : Shape)), ([6, 7], [2])]].join).getD g ([], [])).2,
            dtypeOf c1wState,
            (([[(([5] : Buffer), ([1] : Shape)), ([6, 7], [2])]].join).getD g ([], [])).1⟩) ∧
      (∀ idxs usamples st2 w, updateE c1wState idxs usamples = .ok (st2, w) →
        ∀ g, g < numSamplesOf st2 → g ∉ idxs →
          readSample st2 g = readSample c1wState g)) :=
  ⟨by decide,
   c1_read_roundtrip 8 3 [[(([5] : Buffer), ([1] : Shape)), ([6, 7], [2])]] c1wState
     (by decide) (by decide) (by decide)⟩

/-! ### Claim C3: the append placement rule -/

/-- C3: an incoming sample is merged into the last chunk if and only if the
last chunk exists, its data byte count is under `min_chunk_size`, and the
ceiling chunk counts of the buffer alone and of buffer plus last-chunk bytes
agree; in every other case `_append_bytes` creates a new chunk holding the
entire buffer. -/
theorem c3_append_placement (st : EngineState) (buffer : Buffer) (shape : Shape) :
    ((tryAppendingToLastChunk st buffer shape).2 = true ↔
      ∃ L, lastChunkOf st = some L ∧ L.numDataBytes < minChunkSizeOf st ∧
        minChunkCtForDataSize (maxChunkSizeOf st) buffer.length =
          minChunkCtForDataSize (maxChunkSizeOf st) (buffer.length + L.numDataBytes)) ∧
    ((tryAppendingToLastChunk st buffer shape).2 = false →
      (appendBytes st buffer shape).chunks = st.chunks ++ [freshChunk buffer shape]) := by
  constructor
  · rw [tryAppend_true_iff st buffer shape]
    unfold lastChunkOf
    constructor
    · rintro ⟨L, h1, h2, h3⟩
      exact ⟨L, h1, h2, h3.symm⟩
    · rintro ⟨L, h1, h2, h3⟩
      exact ⟨L, h1, h2, h3.symm⟩
  · intro hfalse
    rw [appendBytes_eq, if_neg (by simp [hfalse])]

theorem c3_append_placement_witness :
    (tryAppendingToLastChunk (stInit 64) [9] [1]).2 = false ∧
    (appendBytes (stInit 64) [9] [1]).chunks = (stInit 64).chunks ++ [freshChunk [9] [1]] :=
  ⟨by decide, (c3_append_placement (stInit 64) [9] [1]).2 (by decide)⟩

/-! ### Claim C10: a merged append writes the whole buffer -/

/-- C10: whenever the placement rule decides to merge into the last chunk and
the buffer respects the codec bound `len(buffer) ≤ max_chunk_size`, the byte
allowance `min(len(buffer), max_chunk_size - last_chunk_size)` equals the full
buffer length, so the merged chunk receives the entire buffer. -/
theorem c10_full_buffer_on_merge (st : EngineState) (buffer : Buffer) (shape : Shape)
    (L : Chunk) (hL : lastChunkOf st = some L)
    (hmerge : (tryAppendingToLastChunk st buffer shape).2 = true)
    (hb : buffer.length ≤ maxChunkSizeOf st) :
    min buffer.length (maxChunkSizeOf st - L.numDataBytes) = buffer.length ∧
    lastChunkOf (tryAppendingToLastChunk st buffer shape).1 =
      some (L.appendSample buffer shape) := by
  obtain ⟨L2, hL2, hmin, hct⟩ := (tryAppend_true_iff st buffer shape).mp hmerge
  unfold lastChunkOf at hL
  have hLL : L = L2 := Option.some.inj (hL.symm.trans hL2)
  subst hLL
  have hextra : min buffer.length (maxChunkSizeOf st - L.numDataBytes) = buffer.length :=
    mergeExtra_eq_full (maxChunkSizeOf st) L.numDataBytes buffer.length
      (maxChunkSizeOf_pos st) hb hct
  refine ⟨hextra, ?_⟩
  rw [tryAppend_merge st buffer shape L hL hmin hct]
  show (st.chunks.dropLast ++
      [L.appendSample (buffer.take (min buffer.length
        (maxChunkSizeOf st - L.numDataBytes))) shape]).getLast? = _
  rw [hextra, List.take_length, List.getLast?_concat]

/-- A one-chunk state about to receive a mergeable sample. -/
def c10wState : EngineState :=
  { meta :=
      {
        dtype := some 1
        length := 1
        minShape := some [1]
        maxShape := some [1]
        maxChunkSize := 10
        sampleCompression := false }
    enc := some [(0, 0)]
    chunks := [⟨[1], [[1]], [(0, 1)]⟩]
    nextChunkId := 1, readonly := false }

theorem c10_full_buffer_on_merge_witness :
    lastChunkOf c10wState = some ⟨[1], [[1]], [(0, 1)]⟩ ∧
    (tryAppendingToLastChunk c10wState [2, 2] [2]).2 = true ∧
    ([2, 2] : Buffer).length ≤ maxChunkSizeOf c10wState ∧
    (min ([2, 2] : Buffer).length
        (maxChunkSizeOf c10wState - Chunk.numDataBytes ⟨[1], [[1]], [(0, 1)]⟩) =
          ([2, 2] : Buffer).length ∧
      lastChunkOf (tryAppendingToLastChunk c10wState [2, 2] [2]).1 =
        some (Chunk.appendSample ⟨[1], [[1]], [(0, 1)]⟩ [2, 2] [2])) :=
  ⟨by decide, by decide, by decide,
   c10_full_buffer_on_merge c10wState [2, 2] [2] ⟨[1], [[1]], [(0, 1)]⟩
     (by decide) (by decide) (by decide)⟩

/-! ### Claim C6: an empty byte range reads back as zeros -/

/-- The byte range the read path looks up for global sample `g`. -/
def bytePositionAt (st : EngineState) (g : Nat) : Nat × Nat :=
  (getChunkForSample st g).bytePositions.getD
    (translateIndexRelativeToChunks (encRows st) g) (0, 0)

/-- The shape the read path looks up for global sample `g`. -/
def shapeAt (st : EngineState) (g : Nat) : Shape :=
  (getChunkForSample st g).shapes.getD
    (translateIndexRelativeToChunks (encRows st) g) []

theorem bytePositionAt_def (st : EngineState) (g : Nat) :
    bytePositionAt st g =
      (getChunkForSample st g).bytePositions.getD
        (translateIndexRelativeToChunks (encRows st) g) (0, 0) := rfl

theorem shapeAt_def (st : EngineState) (g : Nat) :
    shapeAt st g =
      (getChunkForSample st g).shapes.getD
        (translateIndexRelativeToChunks (encRows st) g) [] := rfl

/-- C6: whenever the recorded byte range of a sample is empty
(`start_byte = end_byte`), `read_sample_from_chunk` returns a zero-filled
array of the recorded shape decoded with the tensor dtype. -/
theorem c6_empty_range_zeros (st : EngineState) (g : Nat)
    (h : (bytePositionAt st g).1 = (bytePositionAt st g).2) :
    readSample st g = ⟨shapeAt st g, dtypeOf st, List.replicate (shapeAt st g).prod 0⟩ := by
  unfold readSample
  simp only [readSampleFromChunk]
  rw [← bytePositionAt_def st g, ← shapeAt_def st g]
  have hz : (bytePositionAt st g).2 - (bytePositionAt st g).1 = 0 := by omega
  rw [hz]
  simp

/-- The state after appending one empty sample of shape `(0, 5)`. -/
def c6wState : EngineState :=
  { meta :=
      {
        dtype := some 7
        length := 1
        minShape := some [0, 5]
        maxShape := some [0, 5]
        maxChunkSize := 64
        sampleCompression := false }
    enc := some [(0, 0)]
    chunks := [⟨[], [[0, 5]], [(0, 0)]⟩]
    nextChunkId := 1, readonly := false }

theorem c6_empty_range_zeros_witness :
    extendE (stInit 64) 7 [([], [0, 5])] = .ok c6wState ∧
    bytePositionAt c6wState 0 = (0, 0) ∧
    readSample c6wState 0 =
      ⟨shapeAt c6wState 0, dtypeOf c6wState, List.replicate (shapeAt c6wState 0).prod 0⟩ :=
  ⟨by decide, by decide, c6_empty_range_zeros c6wState 0 (by decide)⟩

/-! ### Claim C7: corruption detection -/

/-- C7: `validate_num_samples_is_synchronized` fails with Corrupted exactly
when the recorded tensor meta length differs from the chunk id encoder's
sample count (an absent encoder blob counting as zero samples); in particular
a state whose encoder blob was deleted while the meta records length 5 fails
the next validation. -/
theorem c7_validate_sync (st : EngineState) :
    (validateNumSamplesIsSynchronized st = .error .corruptedMeta ↔
      st.meta.length ≠ numSamplesOf st) ∧
    (st.enc = none → st.meta.length = 5 →
      validateNumSamplesIsSynchronized st = .error .corruptedMeta) := by
  have hval : validateNumSamplesIsSynchronized st =
      (if st.meta.length ≠ numSamplesOf st then .error .corruptedMeta else .ok ()) := rfl
  constructor
  · rw [hval]
    constructor
    · intro h
      by_cases hne : st.meta.length ≠ numSamplesOf st
      · exact hne
      · rw [if_neg hne] at h
        exact absurd h (by simp)
    · intro hne
      rw [if_pos hne]
  · intro hnone h5
    have hne : st.meta.length ≠ numSamplesOf st := by
      rw [h5]
      unfold numSamplesOf
      rw [hnone]
      decide
    rw [hval, if_pos hne]

/-- A tensor whose ChunkIdEncoder blob was deleted from the cache while the
tensor meta still records 5 samples. -/
def c7wState : EngineState :=
  { meta :=
      {
        dtype := some 1
        length := 5
        minShape := some [1]
        maxShape := some [1]
        maxChunkSize := 64
        sampleCompression := false }
    enc := none, chunks := [], nextChunkId := 0, readonly := false }

theorem c7_validate_sync_witness :
    c7wState.enc = none ∧ c7wState.meta.length = 5 ∧
    validateNumSamplesIsSynchronized c7wState = .error .corruptedMeta :=
  ⟨rfl, rfl, (c7_validate_sync c7wState).2 rfl rfl⟩

/-! ### Claim C9: mutating methods check the read-only flag first -/

/-- C9: extend, append and update all check the storage's read-only flag at
entry and fail with ReadOnly before anything is modified: a read-only state
makes each of them return the ReadOnly error with no new state produced, so
the tensor state is unchanged. -/
theorem c9_readonly_guard (st : EngineState) (dt : Nat) (samples : List (Buffer × Shape))
    (sample : Buffer × Shape) (idxs : List Nat) (usamples : List (Buffer × Shape))
    (h : st.readonly = true) :
    extendE st dt samples = .error .readOnly ∧
    appendE st dt sample = .error .readOnly ∧
    updateE st idxs usamples = .error .readOnly := by
  refine ⟨?_, ?_, ?_⟩
  · unfold extendE
    rw [if_pos h]
  · unfold appendE extendE
    rw [if_pos h]
  · unfold updateE
    rw [if_pos h]

theorem c9_readonly_guard_witness :
    ({ stInit 8 with readonly := true } : EngineState).readonly = true ∧
    (extendE { stInit 8 with readonly := true } 1 [([2], [1])] = .error .readOnly ∧
      appendE { stInit 8 with readonly := true } 1 ([2], [1]) = .error .readOnly ∧
      updateE { stInit 8 with readonly := true } [0] [([2], [1])] = .error .readOnly) :=
  ⟨rfl, c9_readonly_guard { stInit 8 with readonly := true } 1 [([2], [1])] ([2], [1])
    [0] [([2], [1])] rfl⟩

/-! ### Claim C5: numpy and DynamicShape -/

theorem numpyGo_aslist (st : EngineState) (idxs : List Nat) :
    ∀ (lastShape : Option Shape) (acc : List ReadSample),
      numpyGo st true idxs lastShape acc =
        .ok (acc.reverse ++ idxs.map (readSample st)) := by
  induction idxs with
  | nil => intro ls acc; simp [numpyGo]
  | cons g rest ih =>
      intro ls acc
      cases ls with
      | none =>
          show numpyGo st true rest (some (readSample st g).shape)
            (readSample st g :: acc) = _
          rw [ih]
          simp
      | some s0 =>
          show (if true = false ∧ (readSample st g).shape ≠ s0 then
              Except.error EngineError.dynamicShape
            else numpyGo st true rest (some (readSample st g).shape)
              (readSample st g :: acc)) = _
          rw [if_neg (by simp)]
          rw [ih]
          simp

/-- The shapes the read path yields for a list of addressed global indices. -/
def shapesOf (st : EngineState) (idxs : List Nat) : List Shape :=
  idxs.map (fun g => (readSample st g).shape)

/-- Each shape equals its predecessor (a prefix shape given as the start). -/
def ChainEq : Option Shape → List Shape → Prop
  | _, [] => True
  | none, s :: rest => ChainEq (some s) rest
  | some s0, s :: rest => s = s0 ∧ ChainEq (some s) rest

theorem chainEq_some_iff (l : List Shape) :
    ∀ (s0 : Shape), ChainEq (some s0) l ↔ ∀ s ∈ l, s = s0 := by
  induction l with
  | nil => intro s0; simp [ChainEq]
  | cons s rest ih =>
      intro s0
      show (s = s0 ∧ ChainEq (some s) rest) ↔ _
      rw [ih s]
      constructor
      · rintro ⟨rfl, h⟩
        intro x hx
        simp only [List.mem_cons] at hx
        rcases hx with rfl | hx
        · rfl
        · exact h x hx
      · intro h
        have hs : s = s0 := h s (by simp)
        subst hs
        exact ⟨rfl, fun x hx => h x (by simp [hx])⟩

theorem chainEq_none_iff (l : List Shape) :
    ChainEq none l ↔ ∀ s1 ∈ l, ∀ s2 ∈ l, s1 = s2 := by
  cases l with
  | nil => simp [ChainEq]
  | cons s rest =>
      show ChainEq (some s) rest ↔ _
      rw [chainEq_some_iff rest s]
      constructor
      · intro h s1 h1 s2 h2
        simp only [List.mem_cons] at h1 h2
        have e1 : s1 = s := by
          rcases h1 with rfl | h1
          · rfl
          · exact h s1 h1
        have e2 : s2 = s := by
          rcases h2 with rfl | h2
          · rfl
          · exact h s2 h2
        rw [e1, e2]
      · intro h x hx
        exact h x (by simp [hx]) s (by simp)

theorem numpyGo_false_error_iff (st : EngineState) (idxs : List Nat) :
    ∀ (ls : Option Shape) (acc : List ReadSample),
      (numpyGo st false idxs ls acc = .error .dynamicShape ↔
        ¬ ChainEq ls (shapesOf st idxs)) := by
  induction idxs with
  | nil =>
      intro ls acc
      constructor
      · intro h
        exact absurd h (by simp [numpyGo])
      · intro h
        exact absurd (by
          show ChainEq ls (shapesOf st [])
          cases ls <;> trivial) h
  | cons g rest ih =>
      intro ls acc
      cases ls with
      | none =>
          show (numpyGo st false rest (some (readSample st g).shape)
              (readSample st g :: acc) = .error .dynamicShape) ↔
            ¬ ChainEq none ((readSample st g).shape :: shapesOf st rest)
          rw [ih (some (readSample st g).shape) (readSample st g :: acc)]
          rfl
      | some s0 =>
          by_cases hne : (readSample st g).shape = s0
          · have hstep : numpyGo st false (g :: rest) (some s0) acc =
                numpyGo st false rest (some (readSample st g).shape)
                  (readSample st g :: acc) := by
              show (if false = false ∧ (readSample st g).shape ≠ s0 then
                Except.error EngineError.dynamicShape
                else numpyGo st false rest (some (readSample st g).shape)
                  (readSample st g :: acc)) = _
              rw [if_neg (by simp [hne])]
            rw [hstep, ih (some (readSample st g).shape) (readSample st g :: acc)]
            show ¬ ChainEq (some (readSample st g).shape) (shapesOf st rest) ↔
              ¬ ((readSample st g).shape = s0 ∧
                ChainEq (some (readSample st g).shape) (shapesOf st rest))
            constructor
            · intro h hc
              exact h hc.2
            · intro h hc
              exact h ⟨hne, hc⟩
          · have hstep : numpyGo st false (g :: rest) (some s0) acc =
                .error .dynamicShape := by
              show (if false = false ∧ (readSample st g).shape ≠ s0 then
                Except.error EngineError.dynamicShape
                else numpyGo st false rest (some (readSample st g).shape)
                  (readSample st g :: acc)) = _
              rw [if_pos ⟨rfl, hne⟩]
            rw [hstep]
            constructor
            · intro _ hc
              exact hne hc.1
            · intro _
              rfl

/-- C5: `numpy(index, aslist)` raises DynamicShape exactly when `aslist` is
false and the addressed samples do not all share one shape; with
`aslist = true` it never raises and returns the list of materialized samples,
each with its recorded shape. -/
theorem c5_numpy_dynamic_shape (st : EngineState) (idxs : List Nat) :
    (numpyE st idxs false = .error .dynamicShape ↔
      ¬ (∀ s1 ∈ shapesOf st idxs, ∀ s2 ∈ shapesOf st idxs, s1 = s2)) ∧
    numpyE st idxs true = .ok (idxs.map (readSample st)) := by
  constructor
  · unfold numpyE
    rw [numpyGo_false_error_iff st idxs none []]
    rw [chainEq_none_iff]
  · unfold numpyE
    rw [numpyGo_aslist st idxs none []]
    rfl

/-! ### Claim C8: the suboptimal-chunk warning after updates -/

/-- C8: after an update batch, the suboptimal-chunk warning is emitted at most
once; it is emitted exactly when some chunk other than the tail chunk has,
after one of its rewrites, a byte count outside
`[min_chunk_size * 0.8, max_chunk_size * 1.2]`; a batch whose addressed
samples all live in the tail chunk emits no warning. -/
theorem c8_update_warning (st : EngineState) (idxs : List Nat)
    (samples : List (Buffer × Shape)) (st2 : EngineState) (w : Nat)
    (henc : st.enc.isSome = true)
    (hok : updateE st idxs samples = .ok (st2, w)) :
    w ≤ 1 ∧
    (w = 1 ↔ ∃ n ∈ (updateLoop st (idxs.zip samples)).2,
      IsSuboptimal n (minChunkSizeOf st) (maxChunkSizeOf st)) ∧
    ((∀ g ∈ idxs, rowIndexFor (encRows st) g = (encRows st).length - 1) → w = 0) := by
  obtain ⟨rows, hrows⟩ := Option.isSome_iff_exists.mp henc
  obtain ⟨st1, hmat, hro, hlen, hst2, hw⟩ := updateE_ok_elim st idxs samples st2 w hok
  rw [materializeEncoder_of_some st rows hrows] at hmat
  injection hmat with h1
  subst h1
  have hmaxx : maxChunkSizeOf (updateLoop st (idxs.zip samples)).1 = maxChunkSizeOf st := by
    apply maxChunkSizeOf_meta
    exact updateLoop_maxChunkSize _ st
  have hminn : minChunkSizeOf (updateLoop st (idxs.zip samples)).1 = minChunkSizeOf st := by
    unfold minChunkSizeOf
    rw [hmaxx]
  rw [hw, hmaxx, hminn]
  refine ⟨warnIfSuboptimalChunks_le_one _ _ _, warnIfSuboptimalChunks_eq_one_iff _ _ _, ?_⟩
  intro htail
  have hnil : (updateLoop st (idxs.zip samples)).2 = [] := by
    apply updateLoop_records_tail
    intro pr hpr
    obtain ⟨a, bs⟩ := pr
    exact htail a (List.of_mem_zip hpr).1
  rw [hnil]
  rfl

/-- A two-chunk state: chunk 0 holds sample 0 (2 bytes), chunk 1 holds
sample 1 (1 byte); max chunk size 10. -/
def c8wState : EngineState :=
  { meta :=
      { dtype := some 3
        length := 2
        minShape := some [1]
        maxShape := some [2]
        maxChunkSize := 10
        sampleCompression := false }
    enc := some [(0, 0), (1, 1)]
    chunks := [⟨[1, 2], [[2]], [(0, 2)]⟩, ⟨[3], [[1]], [(0, 1)]⟩]
    nextChunkId := 2, readonly := false }

/-- A 13-byte replacement buffer, oversizing chunk 0 beyond `10 * 1.2`. -/
def c8wBuf : Buffer := [9, 9, 9, 9, 9, 9, 9, 9, 9, 9, 9, 9, 9]

/-- The state after updating sample 0 of `c8wState` with the big buffer. -/
def c8wRes : EngineState :=
  { meta :=
      { dtype := some 3
        length := 2
        minShape := some [1]
        maxShape := some [13]
        maxChunkSize := 10
        sampleCompression := false }
    enc := some [(0, 0), (1, 1)]
    chunks := [⟨c8wBuf, [[13]], [(0, 13)]⟩, ⟨[3], [[1]], [(0, 1)]⟩]
    nextChunkId := 2, readonly := false }

theorem c8_update_warning_witness :
    c8wState.enc.isSome = true ∧
    updateE c8wState [0] [(c8wBuf, [13])] = .ok (c8wRes, 1) ∧
    ((1 : Nat) ≤ 1 ∧
      ((1 : Nat) = 1 ↔ ∃ n ∈ (updateLoop c8wState ([0].zip [(c8wBuf, [13])])).2,
        IsSuboptimal n (minChunkSizeOf c8wState) (maxChunkSizeOf c8wState)) ∧
      ((∀ g ∈ ([0] : List Nat),
          rowIndexFor (encRows c8wState) g = (encRows c8wState).length - 1) →
        (1 : Nat) = 0)) :=
  ⟨rfl, by decide,
   c8_update_warning c8wState [0] [(c8wBuf, [13])] c8wRes 1 rfl (by decide)⟩


/-- The name-collecting loop never grows the set beyond the target once the
set is within the target. -/
theorem getChunkNamesGo_card_le (st : EngineState) (t : Nat) (fuel : Nat) :
    ∀ (si : Nat) (names : Finset Nat), names.card ≤ t →
      (getChunkNamesGo st t si fuel names).card ≤ t := by
  induction fuel with
  | zero => intro si names h; exact h
  | succ f ih =>
      intro si names h
      show (if names.card < t then
        getChunkNamesGo st t (si + 1) f (insert (chunkNameFor st si) names)
      else names).card ≤ t
      by_cases hc : names.card < t
      · rw [if_pos hc]
        refine ih (si + 1) _ ?_
        have := Finset.card_insert_le (chunkNameFor st si) names
        omega
      · rw [if_neg hc]; exact h

/-- Every name the loop collects is either already present or owns a sample
visited within the fuel window. -/
theorem getChunkNamesGo_subset (st : EngineState) (t : Nat) (fuel : Nat) :
    ∀ (si : Nat) (names : Finset Nat),
      getChunkNamesGo st t si fuel names ⊆
        names ∪ (Finset.Ico si (si + fuel)).image (chunkNameFor st) := by
  induction fuel with
  | zero =>
      intro si names
      show names ⊆ names ∪ (Finset.Ico si (si + 0)).image (chunkNameFor st)
      exact Finset.subset_union_left
  | succ f ih =>
      intro si names
      show (if names.card < t then
        getChunkNamesGo st t (si + 1) f (insert (chunkNameFor st si) names)
      else names) ⊆ _
      by_cases hc : names.card < t
      · rw [if_pos hc]
        refine (ih (si + 1) (insert (chunkNameFor st si) names)).trans ?_
        intro x hx
        simp only [Finset.mem_union, Finset.mem_insert, Finset.mem_image,
          Finset.mem_Ico] at hx ⊢
        rcases hx with (hx | hx) | ⟨y, ⟨hy1, hy2⟩, hy3⟩
        · exact Or.inr ⟨si, ⟨by omega, by omega⟩, hx.symm⟩
        · exact Or.inl hx
        · exact Or.inr ⟨y, ⟨by omega, by omega⟩, hy3⟩
      · rw [if_neg hc]
        intro x hx
        exact Finset.mem_union.mpr (Or.inl hx)

/-- Splitting the first visited sample off the fuel window's interval image. -/
theorem names_union_insert (st : EngineState) (si f : Nat) (names : Finset Nat) :
    insert (chunkNameFor st si) names ∪
        (Finset.Ico (si + 1) (si + 1 + f)).image (chunkNameFor st) =
      names ∪ (Finset.Ico si (si + (f + 1))).image (chunkNameFor st) := by
  have hico : Finset.Ico si (si + (f + 1)) =
      insert si (Finset.Ico (si + 1) (si + 1 + f)) := by
    have h1 : si + 1 + f = si + (f + 1) := by omega
    rw [h1]
    exact (Nat.Ico_insert_succ_left (by omega)).symm
  rw [hico, Finset.image_insert]
  ext x
  simp only [Finset.mem_union, Finset.mem_insert]
  tauto

/-- When enough distinct owners are available in the window, the loop returns
exactly the target count of names. -/
theorem getChunkNamesGo_card_eq (st : EngineState) (t : Nat) (fuel : Nat) :
    ∀ (si : Nat) (names : Finset Nat), names.card ≤ t →
      t ≤ (names ∪ (Finset.Ico si (si + fuel)).image (chunkNameFor st)).card →
      (getChunkNamesGo st t si fuel names).card = t := by
  induction fuel with
  | zero =>
      intro si names h1 h2
      show names.card = t
      simp only [Nat.add_zero, Finset.Ico_self, Finset.image_empty,
        Finset.union_empty] at h2
      omega
  | succ f ih =>
      intro si names h1 h2
      show (if names.card < t then
        getChunkNamesGo st t (si + 1) f (insert (chunkNameFor st si) names)
      else names).card = t
      by_cases hc : names.card < t
      · rw [if_pos hc]
        refine ih (si + 1) (insert (chunkNameFor st si) names) ?_ ?_
        · have := Finset.card_insert_le (chunkNameFor st si) names
          omega
        · rw [names_union_insert]
          exact h2
      · rw [if_neg hc]; omega

/-- When the loop ends with fewer names than the target, it has visited the
whole window: the result is the initial set plus every owner in the window. -/
theorem getChunkNamesGo_lt_full (st : EngineState) (t : Nat) (fuel : Nat) :
    ∀ (si : Nat) (names : Finset Nat),
      (getChunkNamesGo st t si fuel names).card < t →
      getChunkNamesGo st t si fuel names =
        names ∪ (Finset.Ico si (si + fuel)).image (chunkNameFor st) := by
  induction fuel with
  | zero =>
      intro si names _
      show names = names ∪ (Finset.Ico si (si + 0)).image (chunkNameFor st)
      simp
  | succ f ih =>
      intro si names h
      have hgo : getChunkNamesGo st t si (f + 1) names =
          if names.card < t then
            getChunkNamesGo st t (si + 1) f (insert (chunkNameFor st si) names)
          else names := rfl
      by_cases hc : names.card < t
      · rw [hgo, if_pos hc] at h ⊢
        rw [ih (si + 1) (insert (chunkNameFor st si) names) h]
        exact names_union_insert st si f names
      · rw [hgo, if_neg hc] at h
        omega

/-- A two-chunk state whose samples 0 and 1 live in chunks named 10 and 20. -/
def c4wState : EngineState :=
  { meta :=
      { dtype := some 3
        length := 2
        minShape := some [1]
        maxShape := some [1]
        maxChunkSize := 64
        sampleCompression := false }
    enc := some [(10, 0), (20, 1)]
    chunks := [⟨[5], [[1]], [(0, 1)]⟩, ⟨[6], [[1]], [(0, 1)]⟩]
    nextChunkId := 21, readonly := false }

/-- C4: counterexample. The claim says `get_chunk_names(start, last, target)`
returns a set of names covering the samples in `[start, last)`, returning
fewer than `target` only when the tensor or range ends earlier. In a two-chunk
state holding samples 0 and 1, `get_chunk_names(0, 2, 1)` stops as soon as
`target = 1` names are collected and returns only the first chunk's name,
even though sample 1 lies in the second chunk, whose name 20 is absent from
the result; the range `[0, 2)` is therefore not covered. (Consistently with
the code, the result also never has more than `target` names, contradicting
the claim's "may return more than target names".) -/
theorem c4_chunk_names_counterexample :
    numSamplesOf c4wState = 2 ∧ numChunksOf c4wState = 2 ∧
    getChunkNames c4wState 0 2 1 = {10} ∧
    chunkNameFor c4wState 1 = 20 ∧
    (20 : Nat) ∉ getChunkNames c4wState 0 2 1 := by decide

/-- C4: amended. `get_chunk_names(start, last, target)` does not always cover
`[start, last)`: the loop stops as soon as `target` names are collected, so
the result (i) never exceeds `target` names, (ii) contains only owners of
samples in `[start, last)`, (iii) has exactly `target` names whenever the
range owns at least `target` distinct names, and (iv) covers every owner of
`[start, last)` whenever it ends with fewer than `target` names (the tensor
or range ended early; the converse does not hold, as a full cover can also
have exactly `target` names). -/
theorem c4_chunk_names (st : EngineState) (s l t : Nat) :
    (getChunkNames st s l t).card ≤ t ∧
    getChunkNames st s l t ⊆ (Finset.Ico s l).image (chunkNameFor st) ∧
    (t ≤ ((Finset.Ico s l).image (chunkNameFor st)).card →
      (getChunkNames st s l t).card = t) ∧
    ((getChunkNames st s l t).card < t →
      getChunkNames st s l t = (Finset.Ico s l).image (chunkNameFor st)) := by
  simp only [getChunkNames]
  by_cases hsl : s ≤ l
  · have hfl : s + (l - s) = l := by omega
    refine ⟨getChunkNamesGo_card_le st t (l - s) s ∅ (by simp), ?_, ?_, ?_⟩
    · have hb := getChunkNamesGo_subset st t (l - s) s ∅
      rw [hfl] at hb
      simpa using hb
    · intro ht
      refine getChunkNamesGo_card_eq st t (l - s) s ∅ (by simp) ?_
      rw [hfl]
      simpa using ht
    · intro hlt
      have hd := getChunkNamesGo_lt_full st t (l - s) s ∅ hlt
      rw [hfl] at hd
      simpa using hd
  · have hz : l - s = 0 := by omega
    have hico : Finset.Ico s l = ∅ := Finset.Ico_eq_empty (by omega)
    rw [hz, hico]
    have h0 : getChunkNamesGo st t s 0 ∅ = (∅ : Finset Nat) := rfl
    rw [h0]
    refine ⟨by simp, by simp, ?_, ?_⟩
    · intro ht
      simp only [Finset.image_empty, Finset.card_empty] at ht ⊢
      omega
    · intro _
      simp

/-- The amended theorem at a concrete input: with target 2 over the two-chunk
window both conditional conclusions bite, giving exactly two names. -/
theorem c4_chunk_names_witness :
    2 ≤ ((Finset.Ico 0 2).image (chunkNameFor c4wState)).card ∧
    (getChunkNames c4wState 0 2 2).card = 2 :=
  ⟨by decide, (c4_chunk_names c4wState 0 2 2).2.2.1 (by decide)⟩


/-- One mebibyte, the byte unit of scenario S1 (spec section 8). -/
def MiB : Nat := 1048576

/-- A sample payload of `n` MiB, one byte per element. -/
def c2buf (n : Nat) : Buffer := List.replicate (n * MiB) 1

/-- The first S1 batch: five samples of sizes `[1, 1, 14, 15, 15]` MiB. -/
def c2batch1 : List (Buffer × Shape) :=
  [(c2buf 1, [1]), (c2buf 1, [1]), (c2buf 14, [14]), (c2buf 15, [15]), (c2buf 15, [15])]

/-- The second S1 batch: two samples of sizes `[15, 1]` MiB. -/
def c2batch2 : List (Buffer × Shape) := [(c2buf 15, [15]), (c2buf 1, [1])]

/-- Chunk 0 of S1 after one sample. -/
def c2chunk1 : Chunk := ⟨c2buf 1, [[1]], [(0, MiB)]⟩

/-- Chunk 0 of S1 after two samples. -/
def c2chunk2 : Chunk := ⟨c2buf 1 ++ c2buf 1, [[1], [1]], [(0, MiB), (MiB, 2 * MiB)]⟩

/-- Chunk 0 of S1, finished at 16 MiB with samples 0..2. -/
def c2chunkA : Chunk :=
  ⟨c2buf 1 ++ c2buf 1 ++ c2buf 14, [[1], [1], [14]],
   [(0, MiB), (MiB, 2 * MiB), (2 * MiB, 16 * MiB)]⟩

/-- A fresh chunk holding one 15-MiB sample (chunk 1 after sample 3, and again
chunk 2 after sample 5). -/
def c2chunk4 : Chunk := ⟨c2buf 15, [[15]], [(0, 15 * MiB)]⟩

/-- Chunk 1 of S1, finished at 30 MiB with samples 3..4. -/
def c2chunkB : Chunk :=
  ⟨c2buf 15 ++ c2buf 15, [[15], [15]], [(0, 15 * MiB), (15 * MiB, 30 * MiB)]⟩

/-- Chunk 2 of S1, finished at 16 MiB with samples 5..6. -/
def c2chunkC : Chunk :=
  ⟨c2buf 15 ++ c2buf 1, [[15], [1]], [(0, 15 * MiB), (15 * MiB, 16 * MiB)]⟩

/-- Tensor meta of S1 after materialization, before any sample. -/
def c2metaA : TensorMeta :=
  { dtype := some 7
    length := 0
    minShape := none
    maxShape := none
    maxChunkSize := 32 * MiB
    sampleCompression := false }

/-- Tensor meta of S1 after sample 0. -/
def c2meta1 : TensorMeta :=
  { dtype := some 7
    length := 1
    minShape := some [1]
    maxShape := some [1]
    maxChunkSize := 32 * MiB
    sampleCompression := false }

/-- Tensor meta of S1 after sample 1. -/
def c2meta2 : TensorMeta :=
  { dtype := some 7
    length := 2
    minShape := some [1]
    maxShape := some [1]
    maxChunkSize := 32 * MiB
    sampleCompression := false }

/-- Tensor meta of S1 after sample 2. -/
def c2meta3 : TensorMeta :=
  { dtype := some 7
    length := 3
    minShape := some [1]
    maxShape := some [14]
    maxChunkSize := 32 * MiB
    sampleCompression := false }

/-- Tensor meta of S1 after sample 3. -/
def c2meta4 : TensorMeta :=
  { dtype := some 7
    length := 4
    minShape := some [1]
    maxShape := some [15]
    maxChunkSize := 32 * MiB
    sampleCompression := false }

/-- Tensor meta of S1 after sample 4. -/
def c2meta5 : TensorMeta :=
  { dtype := some 7
    length := 5
    minShape := some [1]
    maxShape := some [15]
    maxChunkSize := 32 * MiB
    sampleCompression := false }

/-- Tensor meta of S1 after sample 5. -/
def c2meta6 : TensorMeta :=
  { dtype := some 7
    length := 6
    minShape := some [1]
    maxShape := some [15]
    maxChunkSize := 32 * MiB
    sampleCompression := false }

/-- Tensor meta of S1 after sample 6. -/
def c2meta7 : TensorMeta :=
  { dtype := some 7
    length := 7
    minShape := some [1]
    maxShape := some [15]
    maxChunkSize := 32 * MiB
    sampleCompression := false }

/-- The S1 state entering the extend loop. -/
def c2sA : EngineState :=
  { meta := c2metaA
    enc := some []
    chunks := []
    nextChunkId := 0
    readonly := false }

/-- The S1 state after sample 0. -/
def c2s1 : EngineState :=
  { meta := c2meta1
    enc := some [(0, 0)]
    chunks := [c2chunk1]
    nextChunkId := 1
    readonly := false }

/-- The S1 state after sample 1. -/
def c2s2 : EngineState :=
  { meta := c2meta2
    enc := some [(0, 1)]
    chunks := [c2chunk2]
    nextChunkId := 1
    readonly := false }

/-- The S1 state after sample 2. -/
def c2s3 : EngineState :=
  { meta := c2meta3
    enc := some [(0, 2)]
    chunks := [c2chunkA]
    nextChunkId := 1
    readonly := false }

/-- The S1 state after sample 3. -/
def c2s4 : EngineState :=
  { meta := c2meta4
    enc := some [(0, 2), (1, 3)]
    chunks := [c2chunkA, c2chunk4]
    nextChunkId := 2
    readonly := false }

/-- The S1 state after the first batch: two chunks of 16 and 30 MiB, rows
ending at samples 2 and 4. -/
def c2st5 : EngineState :=
  { meta := c2meta5
    enc := some [(0, 2), (1, 4)]
    chunks := [c2chunkA, c2chunkB]
    nextChunkId := 2
    readonly := false }

/-- The S1 state after sample 5. -/
def c2s6 : EngineState :=
  { meta := c2meta6
    enc := some [(0, 2), (1, 4), (2, 5)]
    chunks := [c2chunkA, c2chunkB, c2chunk4]
    nextChunkId := 3
    readonly := false }

/-- The S1 state after both batches: three chunks of 16, 30 and 16 MiB, rows
ending at samples 2, 4 and 6. -/
def c2st7 : EngineState :=
  { meta := c2meta7
    enc := some [(0, 2), (1, 4), (2, 6)]
    chunks := [c2chunkA, c2chunkB, c2chunkC]
    nextChunkId := 3
    readonly := false }


theorem c2buf_length (n : Nat) : (c2buf n).length = n * MiB := by
  simp [c2buf]

theorem c2szA : c2chunkA.numDataBytes = 16 * MiB := by
  show (c2buf 1 ++ c2buf 1 ++ c2buf 14).length = 16 * MiB
  simp only [List.length_append, c2buf_length]
  norm_num [MiB]

theorem c2szB : c2chunkB.numDataBytes = 30 * MiB := by
  show (c2buf 15 ++ c2buf 15).length = 30 * MiB
  simp only [List.length_append, c2buf_length]
  norm_num [MiB]

theorem c2szC : c2chunkC.numDataBytes = 16 * MiB := by
  show (c2buf 15 ++ c2buf 1).length = 16 * MiB
  simp only [List.length_append, c2buf_length]
  norm_num [MiB]

theorem c2sz1 : c2chunk1.numDataBytes = MiB := by
  show (c2buf 1).length = MiB
  rw [c2buf_length]
  norm_num

theorem c2sz2 : c2chunk2.numDataBytes = 2 * MiB := by
  show (c2buf 1 ++ c2buf 1).length = 2 * MiB
  simp only [List.length_append, c2buf_length]
  norm_num [MiB]

theorem c2sz4 : c2chunk4.numDataBytes = 15 * MiB := by
  show (c2buf 15).length = 15 * MiB
  rw [c2buf_length]

/-- Every S1 state keeps the configured 32 MiB bound. -/
theorem c2max (st : EngineState) (h : st.meta.maxChunkSize = 32 * MiB) :
    maxChunkSizeOf st = 32 * MiB := by
  unfold maxChunkSizeOf
  rw [h]
  norm_num [MiB]

/-- The S1 minimum chunk size is 16 MiB. -/
theorem c2min (st : EngineState) (h : st.meta.maxChunkSize = 32 * MiB) :
    minChunkSizeOf st = 16 * MiB := by
  unfold minChunkSizeOf
  rw [c2max st h]
  norm_num [MiB]

/-- One unfolding step of the extend loop. -/
theorem c2loopstep (st : EngineState) (buffer : Buffer) (shape : Shape)
    (rest : List (Buffer × Shape)) :
    extendLoop st ((buffer, shape) :: rest) =
      extendLoop (appendBytes { st with meta :=
        { updateShapeInterval st.meta shape with
            length := (updateShapeInterval st.meta shape).length + 1 } } buffer shape)
        rest := rfl

/-- `_append_bytes` in the merge case, fully described. -/
theorem appendBytes_merge (st : EngineState) (buffer : Buffer) (shape : Shape) (L : Chunk)
    (hL : st.chunks.getLast? = some L)
    (hmin : L.numDataBytes < minChunkSizeOf st)
    (hct : minChunkCtForDataSize (maxChunkSizeOf st) (buffer.length + L.numDataBytes) =
      minChunkCtForDataSize (maxChunkSizeOf st) buffer.length) :
    appendBytes st buffer shape =
      { st with
          chunks := st.chunks.dropLast ++
            [L.appendSample (buffer.take (min buffer.length
              (maxChunkSizeOf st - L.numDataBytes))) shape]
          enc := some (incrementLastRow (encRows st) 1) } := by
  rw [appendBytes_eq, tryAppend_merge st buffer shape L hL hmin hct]
  rfl


theorem c2glue1 :
    ({ c2sA with meta :=
      { updateShapeInterval c2sA.meta [1] with
          length := (updateShapeInterval c2sA.meta [1]).length + 1 } } : EngineState) =
      { c2sA with meta := c2meta1 } := rfl

theorem c2glue2 :
    ({ c2s1 with meta :=
      { updateShapeInterval c2s1.meta [1] with
          length := (updateShapeInterval c2s1.meta [1]).length + 1 } } : EngineState) =
      { c2s1 with meta := c2meta2 } := rfl

theorem c2glue3 :
    ({ c2s2 with meta :=
      { updateShapeInterval c2s2.meta [14] with
          length := (updateShapeInterval c2s2.meta [14]).length + 1 } } : EngineState) =
      { c2s2 with meta := c2meta3 } := rfl

theorem c2step1 : appendBytes { c2sA with meta := c2meta1 } (c2buf 1) [1] = c2s1 := by
  have hnone : ({ c2sA with meta := c2meta1 } : EngineState).chunks.getLast? = none := rfl
  rw [appendBytes_eq, tryAppend_none _ _ _ hnone, if_neg (by simp)]
  have hfresh : freshChunk (c2buf 1) [1] = c2chunk1 := by
    simp [freshChunk, c2chunk1, c2buf_length]
  simp [c2sA, c2s1, hfresh, encRows, numSamplesOf, encNumSamples,
    EngineState.mk.injEq]

theorem c2step2 : appendBytes { c2s1 with meta := c2meta2 } (c2buf 1) [1] = c2s2 := by
  have hL : ({ c2s1 with meta := c2meta2 } : EngineState).chunks.getLast? =
      some c2chunk1 := rfl
  have hmin : c2chunk1.numDataBytes < minChunkSizeOf { c2s1 with meta := c2meta2 } := by
    rw [c2sz1, c2min _ rfl]
    norm_num [MiB]
  have hct : minChunkCtForDataSize (maxChunkSizeOf { c2s1 with meta := c2meta2 })
      ((c2buf 1).length + c2chunk1.numDataBytes) =
      minChunkCtForDataSize (maxChunkSizeOf { c2s1 with meta := c2meta2 })
        (c2buf 1).length := by
    rw [c2max _ rfl, c2buf_length, c2sz1]
    norm_num [minChunkCtForDataSize, MiB]
  rw [appendBytes_merge _ _ _ _ hL hmin hct]
  have htake : (c2buf 1).take (min (c2buf 1).length
      (maxChunkSizeOf { c2s1 with meta := c2meta2 } - c2chunk1.numDataBytes)) =
      c2buf 1 := by
    apply List.take_of_length_le
    rw [c2buf_length, c2max _ rfl, c2sz1]
    norm_num [MiB]
  rw [htake]
  have happ : c2chunk1.appendSample (c2buf 1) [1] = c2chunk2 := by
    simp [Chunk.appendSample, c2chunk1, c2chunk2, c2buf_length, Chunk.mk.injEq]
    norm_num [MiB]
  rw [happ]
  have hdrop : ([c2chunk1] : List Chunk).dropLast = ([] : List Chunk) := rfl
  simp [c2s1, c2s2, encRows, hdrop, EngineState.mk.injEq]
  rfl

theorem c2step3 : appendBytes { c2s2 with meta := c2meta3 } (c2buf 14) [14] = c2s3 := by
  have hL : ({ c2s2 with meta := c2meta3 } : EngineState).chunks.getLast? =
      some c2chunk2 := rfl
  have hmin : c2chunk2.numDataBytes < minChunkSizeOf { c2s2 with meta := c2meta3 } := by
    rw [c2sz2, c2min _ rfl]
    norm_num [MiB]
  have hct : minChunkCtForDataSize (maxChunkSizeOf { c2s2 with meta := c2meta3 })
      ((c2buf 14).length + c2chunk2.numDataBytes) =
      minChunkCtForDataSize (maxChunkSizeOf { c2s2 with meta := c2meta3 })
        (c2buf 14).length := by
    rw [c2max _ rfl, c2buf_length, c2sz2]
    norm_num [minChunkCtForDataSize, MiB]
  rw [appendBytes_merge _ _ _ _ hL hmin hct]
  have htake : (c2buf 14).take (min (c2buf 14).length
      (maxChunkSizeOf { c2s2 with meta := c2meta3 } - c2chunk2.numDataBytes)) =
      c2buf 14 := by
    apply List.take_of_length_le
    rw [c2buf_length, c2max _ rfl, c2sz2]
    norm_num [MiB]
  rw [htake]
  have happ : c2chunk2.appendSample (c2buf 14) [14] = c2chunkA := by
    simp [Chunk.appendSample, c2chunk2, c2chunkA, c2buf_length, List.length_append,
      Chunk.mk.injEq]
    norm_num [MiB]
  rw [happ]
  have hdrop : ([c2chunk2] : List Chunk).dropLast = ([] : List Chunk) := rfl
  simp [c2s2, c2s3, encRows, hdrop, EngineState.mk.injEq]
  rfl


theorem c2glue4 :
    ({ c2s3 with meta :=
      { updateShapeInterval c2s3.meta [15] with
          length := (updateShapeInterval c2s3.meta [15]).length + 1 } } : EngineState) =
      { c2s3 with meta := c2meta4 } := rfl

theorem c2glue5 :
    ({ c2s4 with meta :=
      { updateShapeInterval c2s4.meta [15] with
          length := (updateShapeInterval c2s4.meta [15]).length + 1 } } : EngineState) =
      { c2s4 with meta := c2meta5 } := rfl

theorem c2glue6 :
    ({ c2st5 with meta :=
      { updateShapeInterval c2st5.meta [15] with
          length := (updateShapeInterval c2st5.meta [15]).length + 1 } } : EngineState) =
      { c2st5 with meta := c2meta6 } := rfl

theorem c2glue7 :
    ({ c2s6 with meta :=
      { updateShapeInterval c2s6.meta [1] with
          length := (updateShapeInterval c2s6.meta [1]).length + 1 } } : EngineState) =
      { c2s6 with meta := c2meta7 } := rfl

theorem c2step4 : appendBytes { c2s3 with meta := c2meta4 } (c2buf 15) [15] = c2s4 := by
  have hL : ({ c2s3 with meta := c2meta4 } : EngineState).chunks.getLast? =
      some c2chunkA := rfl
  have hmin : ¬ c2chunkA.numDataBytes < minChunkSizeOf { c2s3 with meta := c2meta4 } := by
    rw [c2szA, c2min _ rfl]
    simp
  rw [appendBytes_eq, tryAppend_no_merge_overmin _ _ _ _ hL hmin, if_neg (by simp)]
  have hfresh : freshChunk (c2buf 15) [15] = c2chunk4 := by
    simp [freshChunk, c2chunk4, c2buf_length]
  simp [c2s3, c2s4, hfresh, encRows, numSamplesOf, encNumSamples,
    EngineState.mk.injEq]

theorem c2step5 : appendBytes { c2s4 with meta := c2meta5 } (c2buf 15) [15] = c2st5 := by
  have hL : ({ c2s4 with meta := c2meta5 } : EngineState).chunks.getLast? =
      some c2chunk4 := rfl
  have hmin : c2chunk4.numDataBytes < minChunkSizeOf { c2s4 with meta := c2meta5 } := by
    rw [c2sz4, c2min _ rfl]
    norm_num [MiB]
  have hct : minChunkCtForDataSize (maxChunkSizeOf { c2s4 with meta := c2meta5 })
      ((c2buf 15).length + c2chunk4.numDataBytes) =
      minChunkCtForDataSize (maxChunkSizeOf { c2s4 with meta := c2meta5 })
        (c2buf 15).length := by
    rw [c2max _ rfl, c2buf_length, c2sz4]
    norm_num [minChunkCtForDataSize, MiB]
  rw [appendBytes_merge _ _ _ _ hL hmin hct]
  have htake : (c2buf 15).take (min (c2buf 15).length
      (maxChunkSizeOf { c2s4 with meta := c2meta5 } - c2chunk4.numDataBytes)) =
      c2buf 15 := by
    apply List.take_of_length_le
    rw [c2buf_length, c2max _ rfl, c2sz4]
    norm_num [MiB]
  rw [htake]
  have happ : c2chunk4.appendSample (c2buf 15) [15] = c2chunkB := by
    simp [Chunk.appendSample, c2chunk4, c2chunkB, c2buf_length, Chunk.mk.injEq]
    norm_num [MiB]
  rw [happ]
  have hdrop : ([c2chunkA, c2chunk4] : List Chunk).dropLast = [c2chunkA] := rfl
  simp [c2s4, c2st5, encRows, hdrop, EngineState.mk.injEq]
  rfl

theorem c2step6 : appendBytes { c2st5 with meta := c2meta6 } (c2buf 15) [15] = c2s6 := by
  have hL : ({ c2st5 with meta := c2meta6 } : EngineState).chunks.getLast? =
      some c2chunkB := rfl
  have hmin : ¬ c2chunkB.numDataBytes < minChunkSizeOf { c2st5 with meta := c2meta6 } := by
    rw [c2szB, c2min _ rfl]
    norm_num [MiB]
  rw [appendBytes_eq, tryAppend_no_merge_overmin _ _ _ _ hL hmin, if_neg (by simp)]
  have hfresh : freshChunk (c2buf 15) [15] = c2chunk4 := by
    simp [freshChunk, c2chunk4, c2buf_length]
  simp [c2st5, c2s6, hfresh, encRows, numSamplesOf, encNumSamples,
    EngineState.mk.injEq]

theorem c2step7 : appendBytes { c2s6 with meta := c2meta7 } (c2buf 1) [1] = c2st7 := by
  have hL : ({ c2s6 with meta := c2meta7 } : EngineState).chunks.getLast? =
      some c2chunk4 := rfl
  have hmin : c2chunk4.numDataBytes < minChunkSizeOf { c2s6 with meta := c2meta7 } := by
    rw [c2sz4, c2min _ rfl]
    norm_num [MiB]
  have hct : minChunkCtForDataSize (maxChunkSizeOf { c2s6 with meta := c2meta7 })
      ((c2buf 1).length + c2chunk4.numDataBytes) =
      minChunkCtForDataSize (maxChunkSizeOf { c2s6 with meta := c2meta7 })
        (c2buf 1).length := by
    rw [c2max _ rfl, c2buf_length, c2sz4]
    norm_num [minChunkCtForDataSize, MiB]
  rw [appendBytes_merge _ _ _ _ hL hmin hct]
  have htake : (c2buf 1).take (min (c2buf 1).length
      (maxChunkSizeOf { c2s6 with meta := c2meta7 } - c2chunk4.numDataBytes)) =
      c2buf 1 := by
    apply List.take_of_length_le
    rw [c2buf_length, c2max _ rfl, c2sz4]
    norm_num [MiB]
  rw [htake]
  have happ : c2chunk4.appendSample (c2buf 1) [1] = c2chunkC := by
    simp [Chunk.appendSample, c2chunk4, c2chunkC, c2buf_length, Chunk.mk.injEq]
    norm_num [MiB]
  rw [happ]
  have hdrop : ([c2chunkA, c2chunkB, c2chunk4] : List Chunk).dropLast =
      [c2chunkA, c2chunkB] := rfl
  simp [c2s6, c2st7, encRows, hdrop, EngineState.mk.injEq]
  rfl

/-- The first S1 batch lands as two chunks of 16 and 30 MiB. -/
theorem c2_run1 : extendE (stInit (32 * MiB)) 7 c2batch1 = .ok c2st5 := by
  have h0 : extendE (stInit (32 * MiB)) 7 c2batch1 =
      .ok (extendLoop c2sA c2batch1) := rfl
  rw [h0]
  have hb : c2batch1 = (c2buf 1, [1]) :: [(c2buf 1, [1]), (c2buf 14, [14]),
      (c2buf 15, [15]), (c2buf 15, [15])] := rfl
  rw [hb, c2loopstep, c2glue1, c2step1, c2loopstep, c2glue2, c2step2,
    c2loopstep, c2glue3, c2step3, c2loopstep, c2glue4, c2step4,
    c2loopstep, c2glue5, c2step5]
  rfl

/-- The second S1 batch opens a third chunk and grows it to 16 MiB. -/
theorem c2_run2 : extendE c2st5 7 c2batch2 = .ok c2st7 := by
  have h0 : extendE c2st5 7 c2batch2 = .ok (extendLoop c2st5 c2batch2) := rfl
  rw [h0]
  have hb : c2batch2 = (c2buf 15, [15]) :: [(c2buf 1, [1])] := rfl
  rw [hb, c2loopstep, c2glue6, c2step6, c2loopstep, c2glue7, c2step7]
  rfl


/-- C2: counterexample. Scenario S1 claims that appending samples of sizes
`[1, 1, 14, 15, 15]` MiB under `max_chunk_size = 32 MiB` packs samples 0..3
into chunk 0 (31 MiB) with chunk 1 holding only sample 4, and that the later
batch `[15, 1]` MiB grows chunk 1 to 31 MiB keeping `num_chunks = 2`.  The
code disagrees: after samples 0..2 chunk 0 holds exactly 16 MiB, which is not
strictly below `min_chunk_size = 16 MiB`, so `_try_appending_to_last_chunk`
refuses the merge and sample 3 opens chunk 1.  The first batch therefore ends
with row lasts `[2, 4]` (not `[3, 4]`) and chunk sizes `[16, 30]` MiB (not
`[31, 15]`), and the second batch opens a third chunk, so `num_chunks` becomes
3, not 2. -/
theorem c2_scenario_s1_counterexample :
    extendE (stInit (32 * MiB)) 7 c2batch1 = .ok c2st5 ∧
    extendE c2st5 7 c2batch2 = .ok c2st7 ∧
    c2st5.meta.length = 5 ∧
    numChunksOf c2st5 = 2 ∧
    ¬ c2st5.chunks.map Chunk.numDataBytes = [31 * MiB, 15 * MiB] ∧
    ¬ (encRows c2st5).map Prod.snd = [3, 4] ∧
    ¬ numChunksOf c2st7 = 2 := by
  refine ⟨c2_run1, c2_run2, rfl, rfl, ?_, by decide, by decide⟩
  have hmap : c2st5.chunks.map Chunk.numDataBytes = [16 * MiB, 30 * MiB] := by
    simp [c2st5, c2szA, c2szB]
  rw [hmap]
  simp [MiB]

/-- C2: amended. Scenario S1 as the code actually runs it: the first batch of
sizes `[1, 1, 14, 15, 15]` MiB yields 2 chunks, chunk 0 holding samples 0..2
(16 MiB) and chunk 1 holding samples 3..4 (30 MiB), with `length = 5`; the
second batch of sizes `[15, 1]` MiB then opens a third chunk holding samples
5..6 (16 MiB), ending with `num_chunks = 3` and `length = 7`. -/
theorem c2_scenario_s1 :
    extendE (stInit (32 * MiB)) 7 c2batch1 = .ok c2st5 ∧
    extendE c2st5 7 c2batch2 = .ok c2st7 ∧
    c2st5.meta.length = 5 ∧
    numChunksOf c2st5 = 2 ∧
    c2st5.chunks.map Chunk.numDataBytes = [16 * MiB, 30 * MiB] ∧
    (encRows c2st5).map Prod.snd = [2, 4] ∧
    c2st7.meta.length = 7 ∧
    numChunksOf c2st7 = 3 ∧
    c2st7.chunks.map Chunk.numDataBytes = [16 * MiB, 30 * MiB, 16 * MiB] ∧
    (encRows c2st7).map Prod.snd = [2, 4, 6] := by
  refine ⟨c2_run1, c2_run2, rfl, rfl, ?_, by decide, rfl, rfl, ?_, by decide⟩
  · simp [c2st5, c2szA, c2szB]
  · simp [c2st7, c2szA, c2szB, c2szC]

end HubChunks
